import Mathlib

/-!
Shallow embedding of the LL(1) grammar analyzer of `ex1/grammar.py` /
`ex1/grammar_with_extra_checks.py` and of the recursive-descent JSON parser
of `ex1/parser.py`.

A grammar is a list of rules `(head, body)`; the start symbol is the head of
the first rule.  Python sets are modelled as duplicate-free lists built by
`pyAdd` (append if absent), which matches the membership semantics of
`set.add`; Python dicts are modelled as association lists (`dset` updates in
place or appends a fresh key, `dget` looks a key up).  The `while changing:`
fixed-point loops of the source are modelled by `while_changing`, a
fuel-indexed iterator that stops at the first pass reporting no change; the
fuel arguments are chosen large enough for the loops to stabilize, which is
proved where a claim needs it.
-/

namespace Ex1

/-- Symbols are the plain strings of `ex1/symbols.py`. -/
abbrev Sym := String

/-- A rule `(head, body)`; `body = []` is an epsilon rule. -/
abbrev Rule := Sym × List Sym

/-- A grammar: ordered list of rules, start symbol = head of the first rule. -/
abbrev Grammar := List Rule

/-! Symbol constants from `ex1/symbols.py`. -/

def EOF : Sym := "EOF"

def LP : Sym := "LP"
def RP : Sym := "RP"
def ASSIGN : Sym := "ASSIGN"
def PLUS : Sym := "PLUS"
def IF : Sym := "IF"
def ELSE : Sym := "ELSE"
def ID : Sym := "ID"

def S : Sym := "S"
def E : Sym := "E"
def T : Sym := "T"
def EP : Sym := "EP"

def LB : Sym := "LB"
def RB : Sym := "RB"
def LS : Sym := "LS"
def RS : Sym := "RS"
def COMMA : Sym := "COMMA"
def COLON : Sym := "COLON"
def INT : Sym := "INT"
def STRING : Sym := "STRING"

def obj : Sym := "obj"
def members : Sym := "members"
def keyvalue : Sym := "keyvalue"
def value : Sym := "value"
def obj_right : Sym := "obj_right"
def members_right : Sym := "members_right"

def obj_right_set : Sym := "obj_right_set"
def obj_right_arr : Sym := "obj_right_arr"
def members_set : Sym := "members_set"
def members_arr : Sym := "members_arr"
def members_right_set : Sym := "members_right_set"
def members_right_arr : Sym := "members_right_arr"

/-! Python sets as duplicate-free lists, Python dicts as association lists. -/

/-- `s.add(x)` on a Python set: append `x` if it is not already present. -/
def pyAdd (s : List Sym) (x : Sym) : List Sym :=
  if x ∈ s then s else s ++ [x]

/-- Python list slice `l[a:b]`. -/
def pySlice (l : List Sym) (a b : Nat) : List Sym :=
  (l.take b).drop a

/-- Dict lookup with a default for absent keys (the source never looks up an
absent key, see the KeyError analysis in the accompanying theorems). -/
def dget {κ ν : Type} [DecidableEq κ] (dflt : ν) : List (κ × ν) → κ → ν
  | [], _ => dflt
  | p :: rest, k => if k = p.1 then p.2 else dget dflt rest k

/-- Dict store: replace the value of an existing key, else append the pair. -/
def dset {κ ν : Type} [DecidableEq κ] : List (κ × ν) → κ → ν → List (κ × ν)
  | [], k, v => [(k, v)]
  | p :: rest, k, v => if k = p.1 then (k, v) :: rest else p :: dset rest k v

/-- The analyzer's dictionaries mapping symbols to symbol sets. -/
abbrev PyDict := List (Sym × List Sym)

/-- Lookup in a symbol dictionary (missing keys default to the empty set). -/
def fget (d : PyDict) (k : Sym) : List Sym := dget [] d k

/-- `while changing:` loop: run `step` until it reports no change, giving up
(at the current state) when the fuel runs out. -/
def while_changing {α : Type} (step : α → α × Bool) : Nat → α → α
  | 0, s => s
  | fuel + 1, s =>
    let p := step s
    if p.2 then while_changing step fuel p.1 else s

/-! The grammars of `ex1/grammar.py`. -/

/-- `grammar_recitation` of `ex1/grammar.py`. -/
def grammar_recitation : Grammar := [
  (S, [ID, ASSIGN, E]),
  (S, [IF, LP, E, RP, S, ELSE, S]),
  (E, [T, EP]),
  (T, [ID]),
  (T, [LP, E, RP]),
  (EP, []),
  (EP, [PLUS, E])
]

/-- `grammar_json_4a`, identical in `ex1/grammar.py` and
`ex1/grammar_with_extra_checks.py`. -/
def grammar_json_4a : Grammar := [
  (obj, [LB, RB]),
  (obj, [LB, members, RB]),
  (members, [keyvalue]),
  (members, [members, COMMA, members]),
  (keyvalue, [STRING, COLON, value]),
  (value, [STRING]),
  (value, [INT]),
  (value, [obj])
]

/-- `grammar_json_4b`, identical in `ex1/grammar.py` and
`ex1/grammar_with_extra_checks.py` (`grammar_json_4c` is the same list). -/
def grammar_json_4b : Grammar := [
  (obj, [LB, obj_right]),
  (obj_right, [RB]),
  (obj_right, [members, RB]),
  (members, [keyvalue, members_right]),
  (members_right, [COMMA, members]),
  (members_right, []),
  (keyvalue, [STRING, COLON, value]),
  (value, [STRING]),
  (value, [INT]),
  (value, [obj])
]

/-- `grammar_json_6` as defined in `ex1/grammar.py`. -/
def grammar_json_6 : Grammar := [
  (obj, [LB, obj_right_set]),
  (obj_right_set, [RB]),
  (obj_right_set, [members_set, RB]),
  (obj, [LS, obj_right_arr]),
  (obj_right_arr, [RS]),
  (obj_right_arr, [members_arr, RS]),
  (members_set, [keyvalue, members_right_set]),
  (members_right_set, [COMMA, members_set]),
  (members_right_set, []),
  (members_arr, [keyvalue, members_right_arr]),
  (members_right_arr, [COMMA, members_arr]),
  (members_right_arr, []),
  (keyvalue, [STRING, COLON, value]),
  (value, [STRING]),
  (value, [INT]),
  (value, [obj])
]

/-! `calculate_nullable` (grammar.py lines 27-47). -/

/-- The seeding loop of `calculate_nullable`: heads of literal epsilon rules. -/
def nullableInit (g : Grammar) : List Sym :=
  g.foldl (fun acc r => if r.2 = [] then pyAdd acc r.1 else acc) []

/-- One full pass of `calculate_nullable`'s `while changing:` loop:
for each rule, if every body symbol is already nullable and the head is not,
add the head and report a change. -/
def nullablePass (st : List Sym × Bool) : Grammar → List Sym × Bool
  | [] => st
  | r :: rs =>
    if (∀ x ∈ r.2, x ∈ st.1) ∧ r.1 ∉ st.1 then
      nullablePass (st.1 ++ [r.1], true) rs
    else
      nullablePass st rs

/-- `calculate_nullable(terminals, nonterminals, grammar)`: the `terminals`
and `nonterminals` arguments are unused by the source function, so the
embedding takes only the grammar.  The fuel `g.length + 1` is enough for the
loop to stabilize (each changing pass adds at least one head, and there are
at most `g.length` distinct heads). -/
def calculate_nullable (g : Grammar) : List Sym :=
  while_changing (fun s => nullablePass (s, false) g) (g.length + 1) (nullableInit g)

/-- `is_nullable(token_stream, nullables)` (grammar.py lines 72-76). -/
def is_nullable (token_stream : List Sym) (nullables : List Sym) : Bool :=
  token_stream.all fun token => decide (token ∈ nullables)

/-! `find_terminals_and_nonterminals` (grammar.py lines 144-156). -/

/-- The `symbols` set: every symbol occurring in some rule body. -/
def symbolsOf (g : Grammar) : List Sym :=
  g.foldl (fun acc r => r.2.foldl pyAdd acc) []

/-- The `nonterminals` set: every symbol occurring as a rule head. -/
def nonterminalsOf (g : Grammar) : List Sym :=
  g.foldl (fun acc r => pyAdd acc r.1) []

/-- `terminals = symbols - nonterminals`. -/
def terminalsOf (g : Grammar) : List Sym :=
  (symbolsOf g).filter fun s => decide (s ∉ nonterminalsOf g)

/-!
The inner loops of `calculate_first` and `calculate_follow` all have the
shape `for item in SRC: if item not in D[TGT]: D[TGT].add(item); changing =
True`, where `SRC` is either a set of the evolving dictionary itself or a
set of the fixed `first` dictionary.  A pass of either `while changing:`
loop is therefore a sequence of such union steps, executed in source order
on the live dictionary.  `unionInto` is one union step; an "obligation" is a
pair of the target key and the function producing `SRC` from the current
dictionary; `runObl` executes a pass's obligations in order.
-/

/-- One inner union loop: add the elements of `src` missing from `d[tgt]`,
reporting a change if any was added. -/
def unionInto (st : PyDict × Bool) (tgt : Sym) : List Sym → PyDict × Bool
  | [] => st
  | x :: xs =>
    if x ∈ fget st.1 tgt then unionInto st tgt xs
    else unionInto (dset st.1 tgt (fget st.1 tgt ++ [x]), true) tgt xs

/-- A pending union: target key, and source set as read off the live dict. -/
abbrev Obl := Sym × (PyDict → List Sym)

/-- Run the union steps of one pass in order. -/
def runObl : List Obl → PyDict × Bool → PyDict × Bool
  | [], st => st
  | ob :: obs, st => runObl obs (unionInto st ob.1 (ob.2 st.1))

/-! `calculate_first` (grammar.py lines 50-69). -/

/-- Init loops of `calculate_first`: `first[t] = {t}` for terminals,
`first[a] = {}` for nonterminals. -/
def firstInit (ts nts : List Sym) : PyDict :=
  nts.foldl (fun d a => dset d a []) (ts.foldl (fun d t => dset d t [t]) [])

/-- The union steps of one pass of `calculate_first`'s loop: for each rule
and each body position `i` whose prefix `body[0:i]` is nullable, union
`first[body[i]]` (read off the live dict) into `first[head]`. -/
def firstObligations (nul : List Sym) (g : Grammar) : List Obl :=
  g.flatMap fun r =>
    (List.range r.2.length).filterMap fun i =>
      if is_nullable (pySlice r.2 0 i) nul then
        some (r.1, fun d => fget d (r.2.getD i ""))
      else none

/-- `calculate_first(terminals, nonterminals, grammar, nullable)`.  The fuel
bounds the number of passes; it exceeds the total capacity of the tracked
sets, so the loop always stabilizes before the fuel runs out. -/
def calculate_first (ts nts : List Sym) (g : Grammar) (nul : List Sym) : PyDict :=
  while_changing (fun d => runObl (firstObligations nul g) (d, false))
    ((ts.length + nts.length) * ((symbolsOf g).dedup.length + 1) + 1)
    (firstInit ts nts)

/-! `calculate_follow` (grammar.py lines 79-112). -/

/-- Init of `calculate_follow`: `follow[a] = {}` for each nonterminal, then
`follow[start] = {EOF}`. -/
def followInit (nts : List Sym) (start : Sym) : PyDict :=
  dset (nts.foldl (fun d a => dset d a []) []) start [EOF]

/-- Union steps of the first inner block of a `calculate_follow` pass: for
each body position `i` holding a nonterminal whose suffix `body[i+1:]` is
nullable, union `follow[head]` (live) into `follow[body[i]]`. -/
def followOblA (ts nul : List Sym) (r : Rule) : List Obl :=
  (List.range r.2.length).filterMap fun i =>
    if r.2.getD i "" ∈ ts then none
    else if is_nullable (r.2.drop (i + 1)) nul then
      some (r.2.getD i "", fun d => fget d r.1)
    else none

/-- Union steps of the second inner block: for positions `i < j` with
`body[i]` a nonterminal and `body[i+1:j]` nullable, union `first[body[j]]`
into `follow[body[i]]`. -/
def followOblB (ts nul : List Sym) (first : PyDict) (r : Rule) : List Obl :=
  (List.range (r.2.length - 1)).flatMap fun i =>
    if r.2.getD i "" ∈ ts then []
    else
      (List.range' (i + 1) (r.2.length - (i + 1))).filterMap fun j =>
        if is_nullable (pySlice r.2 (i + 1) j) nul then
          some (r.2.getD i "", fun _ => fget first (r.2.getD j ""))
        else none

/-- All union steps of one `calculate_follow` pass, in source order. -/
def followObligations (ts nul : List Sym) (first : PyDict) (g : Grammar) : List Obl :=
  g.flatMap fun r => followOblA ts nul r ++ followOblB ts nul first r

/-- Pass bound for `calculate_follow`: total capacity of the tracked sets
(follow sets hold only `EOF` and terminals), plus one. -/
def followFuel (g : Grammar) : Nat :=
  (nonterminalsOf g).length * (EOF :: terminalsOf g).dedup.length + 1

/-- The `while changing:` loop of `calculate_follow`, from the seeded
dictionary. -/
def followLoop (ts nts : List Sym) (g : Grammar) (nul : List Sym)
    (first : PyDict) (start : Sym) : PyDict :=
  while_changing (fun d => runObl (followObligations ts nul first g) (d, false))
    (followFuel g) (followInit nts start)

/-- `calculate_follow(terminals, nonterminals, grammar, nullable, first)`.
On the empty grammar the source raises `IndexError` at `grammar[0][0]`,
modelled by `none`. -/
def calculate_follow (ts nts : List Sym) (g : Grammar) (nul : List Sym)
    (first : PyDict) : Option PyDict :=
  match g with
  | [] => none
  | r0 :: _ => some (followLoop ts nts g nul first r0.1)

/-! `calculate_select` (grammar.py lines 115-134). -/

/-- The body walk of `calculate_select`: union `first[item]` for each body
symbol, stopping right after the first non-nullable symbol. -/
def selectWalk (nul : List Sym) (first : PyDict) (acc : List Sym) :
    List Sym → List Sym
  | [] => acc
  | item :: rest =>
    let acc := (fget first item).foldl pyAdd acc
    if is_nullable [item] nul then selectWalk nul first acc rest else acc

/-- SELECT set of one rule: the body walk (for a nonempty body), plus
`follow[head]` when the whole body is nullable. -/
def selectOfRule (nul : List Sym) (first follow : PyDict) (r : Rule) : List Sym :=
  let s : List Sym := []
  let s := if r.2 ≠ [] then selectWalk nul first s r.2 else s
  if is_nullable r.2 nul then (fget follow r.1).foldl pyAdd s else s

/-- `calculate_select(terminals, nonterminals, grammar, nullable, first,
follow)`: dictionary keyed by the full rule value. -/
def calculate_select (g : Grammar) (nul : List Sym) (first follow : PyDict) :
    List (Rule × List Sym) :=
  g.foldl (fun d r => dset d r (selectOfRule nul first follow r)) []

/-! `is_LL1` (grammar_with_extra_checks.py lines 214-230); the same pairwise
scan appears in `analyze_grammar` (grammar.py lines 195-208). -/

/-- The conflict test for a rule pair: same head and intersecting SELECT. -/
def ruleConflict (sel : List (Rule × List Sym)) (r1 r2 : Rule) : Bool :=
  r1.1 == r2.1 && (dget [] sel r1).any fun x => (dget [] sel r2).contains x

/-- The pairwise scan over rule index pairs `i < j`.  The source records
every conflict and returns `ll1`, which is `true` iff no pair conflicts. -/
def ll1Scan (g : Grammar) (sel : List (Rule × List Sym)) : Bool :=
  !((List.range g.length).any fun i =>
    (List.range' (i + 1) (g.length - (i + 1))).any fun j =>
      ruleConflict sel (g.getD i ("", [])) (g.getD j ("", [])))

/-- `is_LL1(grammar)`: the full pipeline.  `none` models the `IndexError`
that `calculate_follow` raises on the empty grammar. -/
def is_LL1 (g : Grammar) : Option Bool :=
  let ts := terminalsOf g
  let nts := nonterminalsOf g
  let nul := calculate_nullable g
  let first := calculate_first ts nts g nul
  match calculate_follow ts nts g nul first with
  | none => none
  | some follow => some (ll1Scan g (calculate_select g nul first follow))

/-- The SELECT dictionary produced by the full pipeline on a grammar, as
`is_LL1` and `analyze_grammar` build it (empty for the empty grammar, where
the source raises before reaching SELECT). -/
def selectMapOf (g : Grammar) : List (Rule × List Sym) :=
  let ts := terminalsOf g
  let nts := nonterminalsOf g
  let nul := calculate_nullable g
  let first := calculate_first ts nts g nul
  match calculate_follow ts nts g nul first with
  | none => []
  | some follow => calculate_select g nul first follow

/-- The lookahead dispatch of `JsonParser` (parser.py lines 83-175), read off
the branch guards: for each rule of `grammar_json_6`, the set of lookahead
terminals on which the branch of the corresponding `parse_<nonterminal>`
method runs and derives that rule.  The branch of `parse_value` guarded by
`[STRING, INT]` matches `self.t`, so it derives `value -> STRING` exactly on
lookahead `STRING` and `value -> INT` exactly on lookahead `INT`. -/
def jsonParserDispatch : Rule → List Sym := fun r =>
  if r = (obj, [LB, obj_right_set]) then [LB]
  else if r = (obj_right_set, [RB]) then [RB]
  else if r = (obj_right_set, [members_set, RB]) then [STRING]
  else if r = (obj, [LS, obj_right_arr]) then [LS]
  else if r = (obj_right_arr, [RS]) then [RS]
  else if r = (obj_right_arr, [members_arr, RS]) then [STRING, INT, LB, LS]
  else if r = (members_set, [keyvalue, members_right_set]) then [STRING]
  else if r = (members_right_set, [COMMA, members_set]) then [COMMA]
  else if r = (members_right_set, []) then [RB]
  else if r = (members_arr, [keyvalue, members_right_arr]) then [STRING, INT, LB, LS]
  else if r = (members_right_arr, [COMMA, members_arr]) then [COMMA]
  else if r = (members_right_arr, []) then [RS]
  else if r = (keyvalue, [STRING, COLON, value]) then [STRING]
  else if r = (value, [STRING]) then [STRING]
  else if r = (value, [INT]) then [INT]
  else if r = (value, [obj]) then [LB, LS]
  else []

/-! The JSON parser (`ex1/parser.py`). -/

/-- A token `(terminal, attached value)`, as produced by the lexer. -/
abbrev Token := Sym × String

/-- Parser state (`Parser.__init__`, parser.py lines 18-30): the token list,
the current position `pos` and the lookahead terminal `t`.  `pos` is an
integer because the constructor sets it to `-1` before the first
`advance()`. -/
structure PState where
  tokens : List Token
  pos : Int
  t : Sym
deriving DecidableEq

/-- The exceptions the parser can raise: the `SyntaxError` of parser.py
line 8 and Python's built-in `IndexError`.  `fuelOut` is an artifact of the
fuel-indexed embedding of the mutually recursive parse methods; it is never
produced with sufficient fuel. -/
inductive PErr where
  | synErr
  | idxErr
  | fuelOut
deriving DecidableEq

/-- Python list indexing `l[i]`: a negative index counts from the end;
`none` models `IndexError`. -/
def pyIdx {α : Type} (l : List α) (i : Int) : Option α :=
  if 0 ≤ i then l.get? i.toNat
  else if 0 ≤ (l.length : Int) + i then l.get? ((l.length : Int) + i).toNat
  else none

/-- `Parser.advance` (parser.py lines 32-48): return the value attached to
the current token (`EOF` once the tokens are exhausted), move `pos` one
forward and refresh the lookahead `t`.  The second component is the state
reached when the result is an error (the first indexing happens before any
mutation, the second after `pos` was incremented). -/
def advanceSt (s : PState) : Except PErr String × PState :=
  let vres : Except PErr String :=
    if s.pos < (s.tokens.length : Int) then
      match pyIdx s.tokens s.pos with
      | some tok => .ok tok.2
      | none => .error .idxErr
    else .ok EOF
  match vres with
  | .error e => (.error e, s)
  | .ok v =>
    let s1 : PState := { s with pos := s.pos + 1 }
    if s1.pos < (s.tokens.length : Int) then
      match pyIdx s.tokens s1.pos with
      | some tok => (.ok v, { s1 with t := tok.1 })
      | none => (.error .idxErr, s1)
    else (.ok v, { s1 with t := EOF })

/-- `Parser.__init__` (parser.py lines 18-30): store the tokens, set
`pos = -1` and call `advance()`, discarding its value. -/
def parserInit (tokens : List Token) : Except PErr PState :=
  match advanceSt { tokens := tokens, pos := -1, t := EOF } with
  | (.ok _, s) => .ok s
  | (.error e, _) => .error e

/-- `Parser.match` (parser.py lines 50-64): on a matching lookahead advance
and return the attached value, otherwise raise `SyntaxError` without
touching the state. -/
def matchSt (s : PState) (terminal : Sym) : Except PErr String × PState :=
  if s.t = terminal then advanceSt s else (.error .synErr, s)

/-- `Parser.match` in the exception-propagating form the parse methods
use (a raised exception aborts the whole parse). -/
def matchE (s : PState) (terminal : Sym) : Except PErr (String × PState) :=
  match matchSt s terminal with
  | (.ok v, s') => .ok (v, s')
  | (.error e, _) => .error e

/-- A parse tree: interior nodes are the `(nonterminal, children)` tuples
built by the parse methods; leaves carry values returned by `match`. -/
inductive PTree where
  | leaf (v : String)
  | node (sym : Sym) (children : List PTree)

mutual

/-- Leaf values of a tree, left to right. -/
def leavesOf : PTree → List String
  | .leaf v => [v]
  | .node _ cs => leavesList cs

/-- Leaf values of a list of trees, left to right. -/
def leavesList : List PTree → List String
  | [] => []
  | t :: ts => leavesOf t ++ leavesList ts

end

mutual

/-- `JsonParser.parse_obj` (parser.py lines 97-107). -/
def parse_obj : Nat → PState → Except PErr (PTree × PState)
  | 0, _ => .error .fuelOut
  | fuel + 1, s =>
    if s.t ∈ [LB] then do
      let (c1, s) ← matchE s LB
      let (c2, s) ← parse_obj_right_set fuel s
      pure (PTree.node obj [PTree.leaf c1, c2], s)
    else if s.t ∈ [LS] then do
      let (c1, s) ← matchE s LS
      let (c2, s) ← parse_obj_right_arr fuel s
      pure (PTree.node obj [PTree.leaf c1, c2], s)
    else .error .synErr

/-- `JsonParser.parse_obj_right_set` (parser.py lines 109-118). -/
def parse_obj_right_set : Nat → PState → Except PErr (PTree × PState)
  | 0, _ => .error .fuelOut
  | fuel + 1, s =>
    if s.t ∈ [RB] then do
      let (c1, s) ← matchE s RB
      pure (PTree.node obj_right_set [PTree.leaf c1], s)
    else if s.t ∈ [STRING] then do
      let (c1, s) ← parse_members_set fuel s
      let (c2, s) ← matchE s RB
      pure (PTree.node obj_right_set [c1, PTree.leaf c2], s)
    else .error .synErr

/-- `JsonParser.parse_obj_right_arr` (parser.py lines 120-129). -/
def parse_obj_right_arr : Nat → PState → Except PErr (PTree × PState)
  | 0, _ => .error .fuelOut
  | fuel + 1, s =>
    if s.t ∈ [RS] then do
      let (c1, s) ← matchE s RS
      pure (PTree.node obj_right_arr [PTree.leaf c1], s)
    else if s.t ∈ [STRING, INT, LB, LS] then do
      let (c1, s) ← parse_members_arr fuel s
      let (c2, s) ← matchE s RS
      pure (PTree.node obj_right_arr [c1, PTree.leaf c2], s)
    else .error .synErr

/-- `JsonParser.parse_members_set` (parser.py lines 131-137). -/
def parse_members_set : Nat → PState → Except PErr (PTree × PState)
  | 0, _ => .error .fuelOut
  | fuel + 1, s =>
    if s.t ∈ [STRING] then do
      let (c1, s) ← parse_keyvalue fuel s
      let (c2, s) ← parse_members_right_set fuel s
      pure (PTree.node members_set [c1, c2], s)
    else .error .synErr

/-- `JsonParser.parse_members_arr` (parser.py lines 139-145). -/
def parse_members_arr : Nat → PState → Except PErr (PTree × PState)
  | 0, _ => .error .fuelOut
  | fuel + 1, s =>
    if s.t ∈ [STRING, INT, LB, LS] then do
      let (c1, s) ← parse_value fuel s
      let (c2, s) ← parse_members_right_arr fuel s
      pure (PTree.node members_arr [c1, c2], s)
    else .error .synErr

/-- `JsonParser.parse_members_right_set` (parser.py lines 147-155). -/
def parse_members_right_set : Nat → PState → Except PErr (PTree × PState)
  | 0, _ => .error .fuelOut
  | fuel + 1, s =>
    if s.t ∈ [COMMA] then do
      let (c1, s) ← matchE s COMMA
      let (c2, s) ← parse_members_set fuel s
      pure (PTree.node members_right_set [PTree.leaf c1, c2], s)
    else if s.t ∈ [RB] then
      pure (PTree.node members_right_set [], s)
    else .error .synErr

/-- `JsonParser.parse_members_right_arr` (parser.py lines 157-165). -/
def parse_members_right_arr : Nat → PState → Except PErr (PTree × PState)
  | 0, _ => .error .fuelOut
  | fuel + 1, s =>
    if s.t ∈ [COMMA] then do
      let (c1, s) ← matchE s COMMA
      let (c2, s) ← parse_members_arr fuel s
      pure (PTree.node members_right_arr [PTree.leaf c1, c2], s)
    else if s.t ∈ [RS] then
      pure (PTree.node members_right_arr [], s)
    else .error .synErr

/-- `JsonParser.parse_keyvalue` (parser.py lines 83-95). -/
def parse_keyvalue : Nat → PState → Except PErr (PTree × PState)
  | 0, _ => .error .fuelOut
  | fuel + 1, s =>
    if s.t ∈ [STRING] then do
      let (c1, s) ← matchE s STRING
      let (c2, s) ← matchE s COLON
      let (c3, s) ← parse_value fuel s
      pure (PTree.node keyvalue [PTree.leaf c1, PTree.leaf c2, c3], s)
    else .error .synErr

/-- `JsonParser.parse_value` (parser.py lines 167-175). -/
def parse_value : Nat → PState → Except PErr (PTree × PState)
  | 0, _ => .error .fuelOut
  | fuel + 1, s =>
    if s.t ∈ [STRING, INT] then do
      let (c1, s) ← matchE s s.t
      pure (PTree.node value [PTree.leaf c1], s)
    else if s.t ∈ [LB, LS] then do
      let (c1, s) ← parse_obj fuel s
      pure (PTree.node value [c1], s)
    else .error .synErr

end

/-- `JsonParser.parse` (parser.py lines 73-81): parse the start symbol and
then match `EOF`, returning the tree built for the start symbol. -/
def parse (fuel : Nat) (s : PState) : Except PErr (PTree × PState) := do
  let (result, s) ← parse_obj fuel s
  let (_, s) ← matchE s EOF
  pure (result, s)

/-- `JsonParser(tokens).parse()`: construct the parser, then run `parse`.
Python bounds the recursion by nothing, so the run is indexed by an
arbitrary fuel: a terminating execution of the Python methods is captured
by every fuel at least the number of method calls it performs, and a
statement quantified over all fuels covers every such execution. -/
def parseTokens (fuel : Nat) (tokens : List Token) : Except PErr PTree :=
  match parserInit tokens with
  | .error e => .error e
  | .ok s =>
    match parse fuel s with
    | .error e => .error e
    | .ok (tr, _) => .ok tr

/-- The lookahead terminal determined by a position: the terminal of the
token at `pos`, or `EOF` past the end. -/
def lookahead (tokens : List Token) (pos : Int) : Sym :=
  if pos < (tokens.length : Int) then (tokens.getD pos.toNat ("", "")).1 else EOF

/-- The state invariant every reachable parser state satisfies: `pos` is
nonnegative and `t` caches the lookahead at `pos`. -/
def WFState (s : PState) : Prop :=
  0 ≤ s.pos ∧ s.t = lookahead s.tokens s.pos

/-- Token lists in which no token carries the reserved end marker as its
terminal. -/
def NoEofTokens (tokens : List Token) : Prop := ∀ tok ∈ tokens, tok.1 ≠ EOF

/-- Postcondition of a successful parser step or run from `s` to `s'`
producing the values `xs`: the token list is unchanged, the position
advances within bounds, the state invariant is preserved, and `xs` is
exactly the value sequence of the consumed token segment. -/
def SegPiece (s s' : PState) (xs : List String) : Prop :=
  s'.tokens = s.tokens ∧ s.pos ≤ s'.pos ∧ s'.pos ≤ (s.tokens.length : Int) ∧
    WFState s' ∧
    xs = ((s.tokens.map Prod.snd).take s'.pos.toNat).drop s.pos.toNat

/-- Parser states reachable by construction and prior successful
operations. -/
inductive Reachable : PState → Prop where
  | init (tokens : List Token) (s : PState) :
      parserInit tokens = .ok s → Reachable s
  | adv (s : PState) (v : String) : Reachable s →
      (advanceSt s).1 = .ok v → Reachable (advanceSt s).2
  | mtch (s : PState) (terminal : Sym) (v : String) : Reachable s →
      (matchSt s terminal).1 = .ok v → Reachable (matchSt s terminal).2

/-! ### Auxiliary notions used by the verification -/

/-- Total number of stored elements (with multiplicity per key). -/
def dsize (d : PyDict) : Nat := (d.map fun p => p.2.length).sum

/-- `d` grew into `d'`: every key's list is extended on the right. -/
def DGrows (d d' : PyDict) : Prop := ∀ k, ∃ e, fget d' k = fget d k ++ e

/-- Value invariant of the evolving dictionaries: every stored list is
duplicate-free with elements in the universe `V`. -/
def EntInv (V : List Sym) (d : PyDict) : Prop :=
  ∀ p ∈ d, p.2.Nodup ∧ ∀ y ∈ p.2, y ∈ V

/-- FIRST of a symbol sequence, as the spec words it: the union of FIRST of
each symbol of the maximal nullable prefix, plus FIRST of the first
non-nullable symbol when one exists. -/
def firstSeq (first : PyDict) (nul : List Sym) : List Sym → List Sym
  | [] => []
  | x :: rest =>
    if x ∈ nul then fget first x ++ firstSeq first nul rest else fget first x

/-- The FOLLOW constraints, as the specification words them: `EOF` is in
`F(start)`, and for every rule `A -> alpha B beta` with `B` a nonterminal,
`FIRST(beta)` is contained in `F(B)`, and `F(A)` is contained in `F(B)`
whenever `beta` is empty or consists entirely of nullable symbols. -/
def FollowClosed (g : Grammar) (nul : List Sym) (first : PyDict)
    (F : Sym → Set Sym) : Prop :=
  EOF ∈ F (g.headD ("", [])).1 ∧
  ∀ r ∈ g, ∀ i, i < r.2.length → r.2.getD i "" ∈ nonterminalsOf g →
    (is_nullable (r.2.drop (i + 1)) nul = true →
        ∀ x ∈ F r.1, x ∈ F (r.2.getD i "")) ∧
    ∀ x ∈ firstSeq first nul (r.2.drop (i + 1)), x ∈ F (r.2.getD i "")

/-! ### Basic lemmas about the set and dictionary primitives -/

theorem mem_pyAdd {s : List Sym} {x y : Sym} : y ∈ pyAdd s x ↔ y ∈ s ∨ y = x := by
  unfold pyAdd
  by_cases h : x ∈ s
  · simp only [if_pos h]
    constructor
    · exact Or.inl
    · rintro (h' | rfl)
      · exact h'
      · exact h
  · simp only [if_neg h, List.mem_append, List.mem_singleton]

theorem nodup_pyAdd {s : List Sym} {x : Sym} (hs : s.Nodup) : (pyAdd s x).Nodup := by
  unfold pyAdd
  by_cases h : x ∈ s
  · simpa [h]
  · simp [h, List.nodup_append, hs]

theorem length_pyAdd (s : List Sym) (x : Sym) : (pyAdd s x).length ≤ s.length + 1 := by
  unfold pyAdd
  by_cases h : x ∈ s <;> simp [h]

theorem mem_foldl_pyAdd (l : List Sym) (acc : List Sym) (y : Sym) :
    y ∈ l.foldl pyAdd acc ↔ y ∈ acc ∨ y ∈ l := by
  induction l generalizing acc with
  | nil => simp
  | cons x xs ih => rw [List.foldl_cons, ih, mem_pyAdd, List.mem_cons]; tauto

theorem nodup_foldl_pyAdd (l : List Sym) (acc : List Sym) (h : acc.Nodup) :
    (l.foldl pyAdd acc).Nodup := by
  induction l generalizing acc with
  | nil => exact h
  | cons x xs ih => exact ih _ (nodup_pyAdd h)

theorem length_foldl_pyAdd (l : List Sym) (acc : List Sym) :
    (l.foldl pyAdd acc).length ≤ acc.length + l.length := by
  induction l generalizing acc with
  | nil => simp
  | cons x xs ih =>
    calc (xs.foldl pyAdd (pyAdd acc x)).length ≤ (pyAdd acc x).length + xs.length := ih _
    _ ≤ (acc.length + 1) + xs.length := by have := length_pyAdd acc x; omega
    _ = acc.length + (x :: xs).length := by simp; omega

theorem mem_nonterminalsOf {g : Grammar} {y : Sym} :
    y ∈ nonterminalsOf g ↔ ∃ r ∈ g, r.1 = y := by
  have aux : ∀ (l : Grammar) (acc : List Sym),
      y ∈ l.foldl (fun acc r => pyAdd acc r.1) acc ↔ y ∈ acc ∨ ∃ r ∈ l, r.1 = y := by
    intro l
    induction l with
    | nil => simp
    | cons r rs ih => intro acc; rw [List.foldl_cons, ih, mem_pyAdd]; simp; tauto
  simpa using aux g []

theorem nodup_nonterminalsOf (g : Grammar) : (nonterminalsOf g).Nodup := by
  have aux : ∀ (l : Grammar) (acc : List Sym), acc.Nodup →
      (l.foldl (fun acc r => pyAdd acc r.1) acc).Nodup := by
    intro l
    induction l with
    | nil => exact fun _ h => h
    | cons r rs ih => exact fun acc h => ih _ (nodup_pyAdd h)
  exact aux g [] List.nodup_nil

theorem length_nonterminalsOf (g : Grammar) : (nonterminalsOf g).length ≤ g.length := by
  have aux : ∀ (l : Grammar) (acc : List Sym),
      (l.foldl (fun acc r => pyAdd acc r.1) acc).length ≤ acc.length + l.length := by
    intro l
    induction l with
    | nil => simp
    | cons r rs ih =>
      intro acc
      calc (rs.foldl (fun acc r => pyAdd acc r.1) (pyAdd acc r.1)).length
          ≤ (pyAdd acc r.1).length + rs.length := ih _
        _ ≤ (acc.length + 1) + rs.length := by have := length_pyAdd acc r.1; omega
        _ = acc.length + (r :: rs).length := by simp; omega
  simpa using aux g []

theorem mem_symbolsOf {g : Grammar} {y : Sym} :
    y ∈ symbolsOf g ↔ ∃ r ∈ g, y ∈ r.2 := by
  have aux : ∀ (l : Grammar) (acc : List Sym),
      y ∈ l.foldl (fun acc r => r.2.foldl pyAdd acc) acc ↔ y ∈ acc ∨ ∃ r ∈ l, y ∈ r.2 := by
    intro l
    induction l with
    | nil => simp
    | cons r rs ih =>
      intro acc
      rw [List.foldl_cons, ih, mem_foldl_pyAdd]
      simp
      tauto
  simpa using aux g []

theorem mem_terminalsOf {g : Grammar} {y : Sym} :
    y ∈ terminalsOf g ↔ y ∈ symbolsOf g ∧ y ∉ nonterminalsOf g := by
  simp [terminalsOf, List.mem_filter]

/-- A rule-body symbol is skipped by the `in terminals` test exactly when it
is a nonterminal (some rule's head). -/
theorem body_not_term_iff {g : Grammar} {r : Rule} {x : Sym}
    (hr : r ∈ g) (hx : x ∈ r.2) :
    x ∉ terminalsOf g ↔ x ∈ nonterminalsOf g := by
  have hsym : x ∈ symbolsOf g := mem_symbolsOf.mpr ⟨r, hr, hx⟩
  rw [mem_terminalsOf]
  constructor
  · intro h
    by_contra hn
    exact h ⟨hsym, hn⟩
  · intro h hc
    exact hc.2 h

theorem dget_dset_self {κ ν : Type} [DecidableEq κ] (dflt : ν) (d : List (κ × ν))
    (k : κ) (v : ν) : dget dflt (dset d k v) k = v := by
  induction d with
  | nil => simp [dset, dget]
  | cons p rest ih =>
    unfold dset
    by_cases h : k = p.1
    · rw [if_pos h]
      unfold dget
      simp
    · rw [if_neg h]
      unfold dget
      rw [if_neg h]
      exact ih

theorem dget_dset_ne {κ ν : Type} [DecidableEq κ] (dflt : ν) (d : List (κ × ν))
    {k k' : κ} (v : ν) (h : k' ≠ k) :
    dget dflt (dset d k v) k' = dget dflt d k' := by
  induction d with
  | nil => simp [dset, dget, h]
  | cons p rest ih =>
    unfold dset
    by_cases hk : k = p.1
    · subst hk
      simp [dget, if_neg h]
    · simp only [if_neg hk]
      unfold dget
      by_cases hk' : k' = p.1
      · simp [hk']
      · simp [hk', ih]

theorem dset_keys_of_mem {κ ν : Type} [DecidableEq κ] {d : List (κ × ν)} {k : κ}
    (v : ν) (h : k ∈ d.map Prod.fst) :
    (dset d k v).map Prod.fst = d.map Prod.fst := by
  induction d with
  | nil => simp at h
  | cons p rest ih =>
    unfold dset
    by_cases hk : k = p.1
    · simp [hk]
    · simp only [if_neg hk]
      simp only [List.map_cons]
      have hmem : k ∈ rest.map Prod.fst := by
        simp only [List.map_cons, List.mem_cons] at h
        rcases h with h' | h'
        · exact absurd h' hk
        · exact h'
      rw [ih hmem]

theorem mem_dset {κ ν : Type} [DecidableEq κ] {d : List (κ × ν)} {k : κ} {v : ν}
    {q : κ × ν} (hq : q ∈ dset d k v) : q = (k, v) ∨ q ∈ d := by
  induction d with
  | nil => simpa [dset] using hq
  | cons p rest ih =>
    unfold dset at hq
    by_cases hk : k = p.1
    · simp only [if_pos hk] at hq
      rcases List.mem_cons.mp hq with h | h
      · exact Or.inl h
      · exact Or.inr (List.mem_cons_of_mem _ h)
    · simp only [if_neg hk] at hq
      rcases List.mem_cons.mp hq with h | h
      · exact Or.inr (h ▸ List.mem_cons_self _ _)
      · rcases ih h with h' | h'
        · exact Or.inl h'
        · exact Or.inr (List.mem_cons_of_mem _ h')

theorem dget_entry {κ ν : Type} [DecidableEq κ] (dflt : ν) (d : List (κ × ν)) (k : κ) :
    dget dflt d k = dflt ∨ (k, dget dflt d k) ∈ d := by
  induction d with
  | nil => exact Or.inl rfl
  | cons p rest ih =>
    unfold dget
    by_cases h : k = p.1
    · simp only [if_pos h]
      right
      rw [h]
      simp
    · simp only [if_neg h]
      rcases ih with h' | h'
      · exact Or.inl h'
      · exact Or.inr (List.mem_cons_of_mem _ h')

/-! ### Size measure and growth order on the analyzer dictionaries -/

theorem dsize_dset_append (d : PyDict) (tgt x : Sym) :
    dsize (dset d tgt (fget d tgt ++ [x])) = dsize d + 1 := by
  induction d with
  | nil => simp [dset, fget, dget, dsize]
  | cons p rest ih =>
    by_cases h : tgt = p.1
    · simp [dset, fget, dget, if_pos h, dsize]
      omega
    · simp only [fget, dget, if_neg h] at ih ⊢
      simp [dset, if_neg h, dsize] at ih ⊢
      omega

theorem DGrows.refl (d : PyDict) : DGrows d d :=
  fun _ => ⟨[], (List.append_nil _).symm⟩

theorem DGrows.trans {a b c : PyDict} (h1 : DGrows a b) (h2 : DGrows b c) :
    DGrows a c := by
  intro k
  obtain ⟨e1, he1⟩ := h1 k
  obtain ⟨e2, he2⟩ := h2 k
  exact ⟨e1 ++ e2, by rw [he2, he1, List.append_assoc]⟩

theorem DGrows.mem {d d' : PyDict} {k x : Sym} (h : DGrows d d') (hx : x ∈ fget d k) :
    x ∈ fget d' k := by
  obtain ⟨e, he⟩ := h k
  rw [he]
  exact List.mem_append_left _ hx

theorem EntInv.fget_nodup {V : List Sym} {d : PyDict} (h : EntInv V d) (k : Sym) :
    (fget d k).Nodup := by
  rcases dget_entry [] d k with h' | h'
  · rw [fget, h']
    exact List.nodup_nil
  · exact (h _ h').1

theorem EntInv.fget_sub {V : List Sym} {d : PyDict} (h : EntInv V d) (k : Sym) :
    ∀ y ∈ fget d k, y ∈ V := by
  rcases dget_entry [] d k with h' | h'
  · rw [fget, h']
    intro y hy
    simp at hy
  · exact (h _ h').2

/-! ### Lemmas about a single union step -/

theorem ui_grows (tgt : Sym) (src : List Sym) (st : PyDict × Bool) :
    DGrows st.1 (unionInto st tgt src).1 := by
  induction src generalizing st with
  | nil => exact DGrows.refl _
  | cons x xs ih =>
    unfold unionInto
    by_cases h : x ∈ fget st.1 tgt
    · simpa [h] using ih st
    · simp only [if_neg h]
      refine DGrows.trans ?_ (ih _)
      intro k
      by_cases hk : k = tgt
      · subst hk
        exact ⟨[x], by simp [fget, dget_dset_self]⟩
      · exact ⟨[], by simp [fget, dget_dset_ne [] st.1 _ hk]⟩

theorem ui_flag_mono (tgt : Sym) (src : List Sym) (st : PyDict × Bool)
    (h : st.2 = true) : (unionInto st tgt src).2 = true := by
  induction src generalizing st with
  | nil => exact h
  | cons x xs ih =>
    unfold unionInto
    by_cases hx : x ∈ fget st.1 tgt
    · simp only [if_pos hx]
      exact ih st h
    · simp only [if_neg hx]
      exact ih _ rfl

theorem ui_of_flag_false (tgt : Sym) (src : List Sym) (d : PyDict)
    (h : (unionInto (d, false) tgt src).2 = false) :
    unionInto (d, false) tgt src = (d, false) ∧ ∀ x ∈ src, x ∈ fget d tgt := by
  induction src with
  | nil => exact ⟨rfl, by simp⟩
  | cons x xs ih =>
    unfold unionInto at h ⊢
    by_cases hx : x ∈ fget d tgt
    · simp only [if_pos hx] at h ⊢
      obtain ⟨h1, h2⟩ := ih h
      refine ⟨h1, ?_⟩
      intro y hy
      rcases List.mem_cons.mp hy with rfl | hy
      · exact hx
      · exact h2 y hy
    · simp only [if_neg hx] at h
      have hm := ui_flag_mono tgt xs (dset d tgt (fget d tgt ++ [x]), true) rfl
      rw [h] at hm
      exact absurd hm (by simp)

theorem ui_stable_of_sub (tgt : Sym) (src : List Sym) (st : PyDict × Bool)
    (h : ∀ x ∈ src, x ∈ fget st.1 tgt) : unionInto st tgt src = st := by
  induction src with
  | nil => rfl
  | cons x xs ih =>
    unfold unionInto
    rw [if_pos (h x (List.mem_cons_self _ _))]
    exact ih fun y hy => h y (List.mem_cons_of_mem _ hy)

theorem ui_dsize_mono (tgt : Sym) (src : List Sym) (st : PyDict × Bool) :
    dsize st.1 ≤ dsize (unionInto st tgt src).1 := by
  induction src generalizing st with
  | nil => exact Nat.le_refl _
  | cons x xs ih =>
    unfold unionInto
    by_cases hx : x ∈ fget st.1 tgt
    · simp only [if_pos hx]
      exact ih st
    · simp only [if_neg hx]
      have h1 := ih (dset st.1 tgt (fget st.1 tgt ++ [x]), true)
      have h2 := dsize_dset_append st.1 tgt x
      simp only at h1
      omega

theorem ui_dsize_strict (tgt : Sym) (src : List Sym) (d : PyDict)
    (h : (unionInto (d, false) tgt src).2 = true) :
    dsize d < dsize (unionInto (d, false) tgt src).1 := by
  induction src with
  | nil => simp [unionInto] at h
  | cons x xs ih =>
    unfold unionInto at h ⊢
    by_cases hx : x ∈ fget d tgt
    · simp only [if_pos hx] at h ⊢
      exact ih h
    · simp only [if_neg hx]
      have h1 := ui_dsize_mono tgt xs (dset d tgt (fget d tgt ++ [x]), true)
      have h2 := dsize_dset_append d tgt x
      simp only at h1
      omega

theorem ui_keys (tgt : Sym) (src : List Sym) (st : PyDict × Bool)
    (h : tgt ∈ st.1.map Prod.fst) :
    (unionInto st tgt src).1.map Prod.fst = st.1.map Prod.fst := by
  induction src generalizing st with
  | nil => rfl
  | cons x xs ih =>
    unfold unionInto
    by_cases hx : x ∈ fget st.1 tgt
    · simp only [if_pos hx]
      exact ih st h
    · simp only [if_neg hx]
      have hkeys := dset_keys_of_mem (d := st.1) (fget st.1 tgt ++ [x]) h
      rw [ih _ (by rw [hkeys]; exact h)]
      exact hkeys

theorem ui_entinv {V : List Sym} (tgt : Sym) (src : List Sym) (st : PyDict × Bool)
    (h : EntInv V st.1) (hs : ∀ x ∈ src, x ∈ V) :
    EntInv V (unionInto st tgt src).1 := by
  induction src generalizing st with
  | nil => exact h
  | cons x xs ih =>
    unfold unionInto
    by_cases hx : x ∈ fget st.1 tgt
    · simp only [if_pos hx]
      exact ih st h fun y hy => hs y (List.mem_cons_of_mem _ hy)
    · simp only [if_neg hx]
      refine ih _ ?_ fun y hy => hs y (List.mem_cons_of_mem _ hy)
      intro p hp
      rcases mem_dset hp with rfl | hp'
      · constructor
        · simp [List.nodup_append, h.fget_nodup tgt, hx]
        · intro y hy
          rcases List.mem_append.mp hy with hy | hy
          · exact h.fget_sub tgt y hy
          · rcases List.mem_singleton.mp hy with rfl
            exact hs y (List.mem_cons_self _ _)
      · exact h p hp'

theorem ui_carrier {Q : Sym → Sym → Prop} (tgt : Sym) (src : List Sym)
    (st : PyDict × Bool) (hP : ∀ k x, x ∈ fget st.1 k → Q k x)
    (hs : ∀ x ∈ src, Q tgt x) :
    ∀ k x, x ∈ fget (unionInto st tgt src).1 k → Q k x := by
  induction src generalizing st with
  | nil => exact hP
  | cons x xs ih =>
    unfold unionInto
    by_cases hx : x ∈ fget st.1 tgt
    · simp only [if_pos hx]
      exact ih st hP fun y hy => hs y (List.mem_cons_of_mem _ hy)
    · simp only [if_neg hx]
      refine ih _ ?_ fun y hy => hs y (List.mem_cons_of_mem _ hy)
      intro k y hy
      by_cases hk : k = tgt
      · subst hk
        rw [fget, dget_dset_self] at hy
        rcases List.mem_append.mp hy with hy | hy
        · exact hP _ _ hy
        · rcases List.mem_singleton.mp hy with rfl
          exact hs y (List.mem_cons_self _ _)
      · rw [fget, dget_dset_ne [] st.1 _ hk] at hy
        exact hP _ _ hy

/-! ### Lemmas about one full pass (a list of union steps) -/

theorem ro_grows (obs : List Obl) (st : PyDict × Bool) :
    DGrows st.1 (runObl obs st).1 := by
  induction obs generalizing st with
  | nil => exact DGrows.refl _
  | cons ob obs ih =>
    exact DGrows.trans (ui_grows ob.1 (ob.2 st.1) st) (ih _)

theorem ro_flag_mono (obs : List Obl) (st : PyDict × Bool) (h : st.2 = true) :
    (runObl obs st).2 = true := by
  induction obs generalizing st with
  | nil => exact h
  | cons ob obs ih => exact ih _ (ui_flag_mono _ _ _ h)

theorem ro_of_flag_false (obs : List Obl) (d : PyDict)
    (h : (runObl obs (d, false)).2 = false) :
    runObl obs (d, false) = (d, false) ∧ ∀ ob ∈ obs, ∀ x ∈ ob.2 d, x ∈ fget d ob.1 := by
  induction obs with
  | nil => exact ⟨rfl, by simp⟩
  | cons ob obs ih =>
    unfold runObl at h ⊢
    change (runObl obs (unionInto (d, false) ob.1 (ob.2 d))).2 = false at h
    change runObl obs (unionInto (d, false) ob.1 (ob.2 d)) = (d, false) ∧ _
    rcases h2 : (unionInto (d, false) ob.1 (ob.2 d)).2 with _ | _
    · have hui := ui_of_flag_false ob.1 (ob.2 d) d h2
      rw [hui.1] at h ⊢
      obtain ⟨h1, hrest⟩ := ih h
      refine ⟨h1, ?_⟩
      intro ob' hob'
      rcases List.mem_cons.mp hob' with rfl | hob'
      · exact hui.2
      · exact hrest ob' hob'
    · have : (runObl obs (unionInto (d, false) ob.1 (ob.2 d))).2 = true := by
        apply ro_flag_mono
        exact h2
      rw [h] at this
      exact absurd this (by simp)

theorem ro_stable_of (obs : List Obl) (d : PyDict)
    (h : ∀ ob ∈ obs, ∀ x ∈ ob.2 d, x ∈ fget d ob.1) :
    runObl obs (d, false) = (d, false) := by
  induction obs with
  | nil => rfl
  | cons ob obs ih =>
    unfold runObl
    rw [ui_stable_of_sub ob.1 (ob.2 d) (d, false) (h ob (List.mem_cons_self _ _))]
    exact ih fun ob' hob' => h ob' (List.mem_cons_of_mem _ hob')

theorem ro_dsize_mono (obs : List Obl) (st : PyDict × Bool) :
    dsize st.1 ≤ dsize (runObl obs st).1 := by
  induction obs generalizing st with
  | nil => exact Nat.le_refl _
  | cons ob obs ih =>
    unfold runObl
    exact Nat.le_trans (ui_dsize_mono ob.1 (ob.2 st.1) st) (ih _)

theorem ro_dsize_strict (obs : List Obl) (d : PyDict)
    (h : (runObl obs (d, false)).2 = true) :
    dsize d < dsize (runObl obs (d, false)).1 := by
  induction obs with
  | nil => simp [runObl] at h
  | cons ob obs ih =>
    unfold runObl at h ⊢
    change (runObl obs (unionInto (d, false) ob.1 (ob.2 d))).2 = true at h
    change dsize d < dsize (runObl obs (unionInto (d, false) ob.1 (ob.2 d))).1
    rcases h2 : (unionInto (d, false) ob.1 (ob.2 d)).2 with _ | _
    · have hui := ui_of_flag_false ob.1 (ob.2 d) d h2
      rw [hui.1] at h ⊢
      exact ih h
    · have hlt : dsize d < dsize (unionInto (d, false) ob.1 (ob.2 d)).1 :=
        ui_dsize_strict ob.1 (ob.2 d) d h2
      have hmono := ro_dsize_mono obs (unionInto (d, false) ob.1 (ob.2 d))
      omega

theorem ro_keys {K : List Sym} (obs : List Obl) (st : PyDict × Bool)
    (hst : st.1.map Prod.fst = K) (hobs : ∀ ob ∈ obs, ob.1 ∈ K) :
    (runObl obs st).1.map Prod.fst = K := by
  induction obs generalizing st with
  | nil => exact hst
  | cons ob obs ih =>
    unfold runObl
    have h1 : (unionInto st ob.1 (ob.2 st.1)).1.map Prod.fst = K := by
      rw [ui_keys ob.1 (ob.2 st.1) st (by rw [hst]; exact hobs ob (List.mem_cons_self _ _))]
      exact hst
    exact ih _ h1 fun ob' hob' => hobs ob' (List.mem_cons_of_mem _ hob')

theorem ro_entinv {V : List Sym} (obs : List Obl) (st : PyDict × Bool)
    (h : EntInv V st.1)
    (hs : ∀ ob ∈ obs, ∀ d, EntInv V d → ∀ x ∈ ob.2 d, x ∈ V) :
    EntInv V (runObl obs st).1 := by
  induction obs generalizing st with
  | nil => exact h
  | cons ob obs ih =>
    unfold runObl
    refine ih _ (ui_entinv ob.1 (ob.2 st.1) st h ?_) ?_
    · exact hs ob (List.mem_cons_self _ _) st.1 h
    · exact fun ob' hob' => hs ob' (List.mem_cons_of_mem _ hob')

theorem ro_carrier {Q : Sym → Sym → Prop} (obs : List Obl) (st : PyDict × Bool)
    (hP : ∀ k x, x ∈ fget st.1 k → Q k x)
    (hs : ∀ ob ∈ obs, ∀ d, (∀ k x, x ∈ fget d k → Q k x) → ∀ x ∈ ob.2 d, Q ob.1 x) :
    ∀ k x, x ∈ fget (runObl obs st).1 k → Q k x := by
  induction obs generalizing st with
  | nil => exact hP
  | cons ob obs ih =>
    unfold runObl
    refine ih _ (ui_carrier ob.1 (ob.2 st.1) st hP ?_) ?_
    · exact hs ob (List.mem_cons_self _ _) st.1 hP
    · exact fun ob' hob' => hs ob' (List.mem_cons_of_mem _ hob')

/-! ### The `while changing:` loop: invariants and reaching the fixed point -/

theorem wc_pres {α : Type} (step : α → α × Bool) (P : α → Prop)
    (h : ∀ s, P s → P (step s).1) :
    ∀ fuel s, P s → P (while_changing step fuel s) := by
  intro fuel
  induction fuel with
  | zero => exact fun s hs => hs
  | succ n ih =>
    intro s hs
    rw [while_changing]
    by_cases h2 : (step s).2
    · simp only [h2, if_true]
      exact ih _ (h s hs)
    · simp only [h2, if_false]
      exact hs

theorem wc_fix {α : Type} (step : α → α × Bool) (m : α → Nat) (inv : α → Prop)
    (B : Nat)
    (hinv : ∀ s, inv s → inv (step s).1)
    (hstrict : ∀ s, inv s → (step s).2 = true → m s < m (step s).1)
    (hbound : ∀ s, inv s → m s ≤ B)
    (hid : ∀ s, (step s).2 = false → (step s).1 = s) :
    ∀ fuel s, inv s → B < m s + fuel →
      step (while_changing step fuel s) = (while_changing step fuel s, false) := by
  intro fuel
  induction fuel with
  | zero =>
    intro s hs hlt
    have := hbound s hs
    omega
  | succ n ih =>
    intro s hs hlt
    rw [while_changing]
    by_cases h2 : (step s).2
    · simp only [h2, if_true]
      exact ih (step s).1 (hinv s hs) (by have := hstrict s hs h2; omega)
    · simp only [h2, if_false]
      have h2' : (step s).2 = false := by simpa using h2
      have h1 := hid s h2'
      rw [Prod.ext_iff]
      exact ⟨h1, h2'⟩

/-! ### `calculate_nullable` as a least fixed point -/

theorem np_grows (rs : Grammar) (st : List Sym × Bool) :
    ∃ e, (nullablePass st rs).1 = st.1 ++ e := by
  induction rs generalizing st with
  | nil => exact ⟨[], (List.append_nil _).symm⟩
  | cons r rs ih =>
    unfold nullablePass
    by_cases h : (∀ x ∈ r.2, x ∈ st.1) ∧ r.1 ∉ st.1
    · rw [if_pos h]
      obtain ⟨e, he⟩ := ih (st.1 ++ [r.1], true)
      exact ⟨[r.1] ++ e, by rw [he]; simp⟩
    · rw [if_neg h]
      exact ih st

theorem np_flag_mono (rs : Grammar) (st : List Sym × Bool) (h : st.2 = true) :
    (nullablePass st rs).2 = true := by
  induction rs generalizing st with
  | nil => exact h
  | cons r rs ih =>
    unfold nullablePass
    by_cases hc : (∀ x ∈ r.2, x ∈ st.1) ∧ r.1 ∉ st.1
    · rw [if_pos hc]
      exact ih _ rfl
    · rw [if_neg hc]
      exact ih st h

theorem np_of_flag_false (rs : Grammar) (s : List Sym)
    (h : (nullablePass (s, false) rs).2 = false) :
    nullablePass (s, false) rs = (s, false) ∧
      ∀ r ∈ rs, (∀ x ∈ r.2, x ∈ s) → r.1 ∈ s := by
  induction rs with
  | nil => exact ⟨rfl, by simp⟩
  | cons r rs ih =>
    unfold nullablePass at h ⊢
    by_cases hc : (∀ x ∈ r.2, x ∈ (s, false).1) ∧ r.1 ∉ (s, false).1
    · rw [if_pos hc] at h
      have hm := np_flag_mono rs ((s, false).1 ++ [r.1], true) rfl
      rw [h] at hm
      exact absurd hm (by simp)
    · rw [if_neg hc] at h ⊢
      obtain ⟨h1, h2⟩ := ih h
      refine ⟨h1, ?_⟩
      intro r' hr' hb
      rcases List.mem_cons.mp hr' with rfl | hr'
      · by_contra hn
        exact hc ⟨hb, hn⟩
      · exact h2 r' hr' hb

theorem np_stable_of (rs : Grammar) (s : List Sym)
    (h : ∀ r ∈ rs, (∀ x ∈ r.2, x ∈ s) → r.1 ∈ s) :
    nullablePass (s, false) rs = (s, false) := by
  induction rs with
  | nil => rfl
  | cons r rs ih =>
    unfold nullablePass
    have hc : ¬ ((∀ x ∈ r.2, x ∈ (s, false).1) ∧ r.1 ∉ (s, false).1) := by
      rintro ⟨hb, hn⟩
      exact hn (h r (List.mem_cons_self _ _) hb)
    rw [if_neg hc]
    exact ih fun r' hr' => h r' (List.mem_cons_of_mem _ hr')

theorem np_len_strict (rs : Grammar) (s : List Sym)
    (h : (nullablePass (s, false) rs).2 = true) :
    s.length < (nullablePass (s, false) rs).1.length := by
  induction rs with
  | nil => simp [nullablePass] at h
  | cons r rs ih =>
    unfold nullablePass at h ⊢
    by_cases hc : (∀ x ∈ r.2, x ∈ (s, false).1) ∧ r.1 ∉ (s, false).1
    · rw [if_pos hc]
      obtain ⟨e, he⟩ := np_grows rs ((s, false).1 ++ [r.1], true)
      rw [he]
      simp
      try omega
    · rw [if_neg hc] at h ⊢
      exact ih h

theorem np_mem (rs : Grammar) (st : List Sym × Bool) :
    ∀ x ∈ (nullablePass st rs).1, x ∈ st.1 ∨ ∃ r ∈ rs, r.1 = x := by
  induction rs generalizing st with
  | nil => exact fun x hx => Or.inl hx
  | cons r rs ih =>
    unfold nullablePass
    by_cases hc : (∀ x ∈ r.2, x ∈ st.1) ∧ r.1 ∉ st.1
    · rw [if_pos hc]
      intro x hx
      rcases ih (st.1 ++ [r.1], true) x hx with hx' | ⟨r', hr', rfl⟩
      · rcases List.mem_append.mp hx' with hx' | hx'
        · exact Or.inl hx'
        · rcases List.mem_singleton.mp hx' with rfl
          exact Or.inr ⟨r, List.mem_cons_self _ _, rfl⟩
      · exact Or.inr ⟨r', List.mem_cons_of_mem _ hr', rfl⟩
    · rw [if_neg hc]
      intro x hx
      rcases ih st x hx with hx' | ⟨r', hr', rfl⟩
      · exact Or.inl hx'
      · exact Or.inr ⟨r', List.mem_cons_of_mem _ hr', rfl⟩

theorem np_nodup (rs : Grammar) (st : List Sym × Bool) (h : st.1.Nodup) :
    (nullablePass st rs).1.Nodup := by
  induction rs generalizing st with
  | nil => exact h
  | cons r rs ih =>
    unfold nullablePass
    by_cases hc : (∀ x ∈ r.2, x ∈ st.1) ∧ r.1 ∉ st.1
    · rw [if_pos hc]
      exact ih _ (by simp [List.nodup_append, h, hc.2])
    · rw [if_neg hc]
      exact ih st h

theorem np_sound (rs : Grammar) (S : Set Sym)
    (hcl : ∀ r ∈ rs, (∀ x ∈ r.2, x ∈ S) → r.1 ∈ S) (st : List Sym × Bool)
    (hst : ∀ x ∈ st.1, x ∈ S) : ∀ x ∈ (nullablePass st rs).1, x ∈ S := by
  induction rs generalizing st with
  | nil => exact hst
  | cons r rs ih =>
    unfold nullablePass
    by_cases hc : (∀ x ∈ r.2, x ∈ st.1) ∧ r.1 ∉ st.1
    · rw [if_pos hc]
      refine ih (fun r' hr' => hcl r' (List.mem_cons_of_mem _ hr')) _ ?_
      intro x hx
      rcases List.mem_append.mp hx with hx | hx
      · exact hst x hx
      · rcases List.mem_singleton.mp hx with rfl
        exact hcl r (List.mem_cons_self _ _) fun y hy => hst y (hc.1 y hy)
    · rw [if_neg hc]
      exact ih (fun r' hr' => hcl r' (List.mem_cons_of_mem _ hr')) st hst

theorem mem_nullableInit {g : Grammar} {x : Sym} :
    x ∈ nullableInit g ↔ ∃ r ∈ g, r.2 = [] ∧ r.1 = x := by
  have aux : ∀ (l : Grammar) (acc : List Sym),
      x ∈ l.foldl (fun acc r => if r.2 = [] then pyAdd acc r.1 else acc) acc ↔
        x ∈ acc ∨ ∃ r ∈ l, r.2 = [] ∧ r.1 = x := by
    intro l
    induction l with
    | nil => simp
    | cons r rs ih =>
      intro acc
      rw [List.foldl_cons, ih]
      by_cases hr : r.2 = []
      · rw [if_pos hr, mem_pyAdd]
        simp [hr]
        try tauto
      · rw [if_neg hr]
        simp [hr]
        try tauto
  simpa using aux g []

theorem nodup_nullableInit (g : Grammar) : (nullableInit g).Nodup := by
  have aux : ∀ (l : Grammar) (acc : List Sym), acc.Nodup →
      (l.foldl (fun acc r => if r.2 = [] then pyAdd acc r.1 else acc) acc).Nodup := by
    intro l
    induction l with
    | nil => exact fun _ h => h
    | cons r rs ih =>
      intro acc h
      rw [List.foldl_cons]
      apply ih
      show (if r.2 = [] then pyAdd acc r.1 else acc).Nodup
      by_cases hr : r.2 = []
      · rw [if_pos hr]
        exact nodup_pyAdd h
      · rwa [if_neg hr]
  exact aux g [] List.nodup_nil

theorem nodup_subset_length {l u : List Sym} (hl : l.Nodup) (hu : u.Nodup)
    (hsub : ∀ x ∈ l, x ∈ u) : l.length ≤ u.length := by
  classical
  have h1 : l.toFinset.card = l.length := List.toFinset_card_of_nodup hl
  have h2 : u.toFinset.card = u.length := List.toFinset_card_of_nodup hu
  have h3 : l.toFinset ⊆ u.toFinset := by
    intro a ha
    rw [List.mem_toFinset] at ha ⊢
    exact hsub a ha
  have h4 := Finset.card_le_card h3
  omega

theorem nullable_inv (g : Grammar) :
    (calculate_nullable g).Nodup ∧
      ∀ x ∈ calculate_nullable g, x ∈ nonterminalsOf g := by
  refine wc_pres _ (fun s : List Sym => s.Nodup ∧ ∀ x ∈ s, x ∈ nonterminalsOf g) ?_ _ _ ?_
  · rintro s ⟨h1, h2⟩
    refine ⟨np_nodup g (s, false) h1, ?_⟩
    intro x hx
    rcases np_mem g (s, false) x hx with hx' | ⟨r, hr, rfl⟩
    · exact h2 x hx'
    · exact mem_nonterminalsOf.mpr ⟨r, hr, rfl⟩
  · refine ⟨nodup_nullableInit g, ?_⟩
    intro x hx
    obtain ⟨r, hr, _, rfl⟩ := mem_nullableInit.mp hx
    exact mem_nonterminalsOf.mpr ⟨r, hr, rfl⟩

theorem nullable_fix (g : Grammar) :
    nullablePass (calculate_nullable g, false) g = (calculate_nullable g, false) := by
  have h := wc_fix (fun s => nullablePass (s, false) g) (fun s : List Sym => s.length)
    (fun s : List Sym => s.Nodup ∧ ∀ x ∈ s, x ∈ nonterminalsOf g) g.length
    ?_ ?_ ?_ ?_ (g.length + 1) (nullableInit g) ?_ ?_
  · exact h
  · rintro s ⟨h1, h2⟩
    refine ⟨np_nodup g (s, false) h1, ?_⟩
    intro x hx
    rcases np_mem g (s, false) x hx with hx' | ⟨r, hr, rfl⟩
    · exact h2 x hx'
    · exact mem_nonterminalsOf.mpr ⟨r, hr, rfl⟩
  · rintro s ⟨_, _⟩ hflag
    exact np_len_strict g s hflag
  · rintro s ⟨h1, h2⟩
    have ha := nodup_subset_length h1 (nodup_nonterminalsOf g) h2
    have hb := length_nonterminalsOf g
    show s.length ≤ g.length
    omega
  · intro s hflag
    have h1 := (np_of_flag_false g s hflag).1
    show (nullablePass (s, false) g).1 = s
    rw [h1]
  · refine ⟨nodup_nullableInit g, ?_⟩
    intro x hx
    obtain ⟨r, hr, _, rfl⟩ := mem_nullableInit.mp hx
    exact mem_nonterminalsOf.mpr ⟨r, hr, rfl⟩
  · omega

theorem nullable_least (g : Grammar) (S : Set Sym)
    (hcl : ∀ r ∈ g, (∀ x ∈ r.2, x ∈ S) → r.1 ∈ S) :
    ∀ x ∈ calculate_nullable g, x ∈ S := by
  refine wc_pres _ (fun s => ∀ x ∈ s, x ∈ S) ?_ _ _ ?_
  · intro s hs
    exact np_sound g S hcl (s, false) hs
  · intro x hx
    obtain ⟨r, hr, hre, rfl⟩ := mem_nullableInit.mp hx
    exact hcl r hr (by rw [hre]; intro y hy; simp at hy)

/-- C4: `calculate_nullable` returns the least set `N` containing the head of
every rule whose body symbols all lie in `N` (vacuously, every epsilon rule's
head); re-running the nullability pass on the result changes nothing, and
every member of the result is some rule's head. -/
theorem calculate_nullable_least_fixed_point (g : Grammar) :
    (∀ r ∈ g, (∀ x ∈ r.2, x ∈ calculate_nullable g) → r.1 ∈ calculate_nullable g) ∧
    (∀ S : Set Sym, (∀ r ∈ g, (∀ x ∈ r.2, x ∈ S) → r.1 ∈ S) →
        ∀ x ∈ calculate_nullable g, x ∈ S) ∧
    (∀ x ∈ calculate_nullable g, ∃ r ∈ g, r.1 = x) ∧
    nullablePass (calculate_nullable g, false) g = (calculate_nullable g, false) := by
  have hfix := nullable_fix g
  refine ⟨?_, ?_, ?_, hfix⟩
  · have h := np_of_flag_false g (calculate_nullable g) (by rw [hfix])
    exact h.2
  · exact nullable_least g
  · intro x hx
    exact mem_nonterminalsOf.mp ((nullable_inv g).2 x hx)

/-- Witness for C4 at the recitation grammar: `{EP}` is closed under the
nullability step, so the computed nullable set is contained in it. -/
theorem calculate_nullable_least_fixed_point_witness :
    (∀ r ∈ grammar_recitation,
        (∀ x ∈ r.2, x ∈ ({y | y ∈ ([EP] : List Sym)} : Set Sym)) →
          r.1 ∈ ({y | y ∈ ([EP] : List Sym)} : Set Sym)) ∧
    ∀ x ∈ calculate_nullable grammar_recitation,
        x ∈ ({y | y ∈ ([EP] : List Sym)} : Set Sym) := by
  constructor
  · show ∀ r ∈ grammar_recitation,
        (∀ x ∈ r.2, x ∈ ([EP] : List Sym)) → r.1 ∈ ([EP] : List Sym)
    decide
  · exact (calculate_nullable_least_fixed_point grammar_recitation).2.1 _
      (by show ∀ r ∈ grammar_recitation,
            (∀ x ∈ r.2, x ∈ ([EP] : List Sym)) → r.1 ∈ ([EP] : List Sym)
          decide)

/-! ### Index and slice helpers -/

theorem is_nullable_iff {l nul : List Sym} :
    is_nullable l nul = true ↔ ∀ t ∈ l, t ∈ nul := by
  simp [is_nullable, List.all_eq_true]

theorem getD_drop (l : List Sym) (n k : Nat) :
    (l.drop n).getD k "" = l.getD (n + k) "" := by
  simp [List.getD_eq_getElem?_getD, List.getElem?_drop]

theorem getD_mem_of_lt (l : List Sym) (i : Nat) (h : i < l.length) :
    l.getD i "" ∈ l := by
  rw [List.getD_eq_getElem?_getD, List.getElem?_eq_getElem h]
  simp only [Option.getD_some]
  exact List.getElem_mem h

theorem slice_drop_take (l : List Sym) (n k : Nat) :
    pySlice l n (n + k) = (l.drop n).take k := by
  unfold pySlice
  rw [List.drop_take]
  congr 1
  omega

theorem mem_firstSeq {first : PyDict} {nul : List Sym} :
    ∀ (l : List Sym) (x : Sym),
      x ∈ firstSeq first nul l ↔
        ∃ k, k < l.length ∧ is_nullable (l.take k) nul = true ∧
          x ∈ fget first (l.getD k "") := by
  intro l
  induction l with
  | nil => intro x; simp [firstSeq]
  | cons y rest ih =>
    intro x
    unfold firstSeq
    by_cases hy : y ∈ nul
    · rw [if_pos hy, List.mem_append, ih]
      constructor
      · rintro (hx | ⟨k, hk, hnul, hx⟩)
        · exact ⟨0, by simp, by simp [is_nullable], by simpa using hx⟩
        · refine ⟨k + 1, by simpa using hk, ?_, by simpa using hx⟩
          rw [List.take_succ_cons, is_nullable_iff]
          rw [is_nullable_iff] at hnul
          intro t ht
          rcases List.mem_cons.mp ht with rfl | ht
          · exact hy
          · exact hnul t ht
      · rintro ⟨k, hk, hnul, hx⟩
        cases k with
        | zero => exact Or.inl (by simpa using hx)
        | succ k =>
          right
          refine ⟨k, by simpa using hk, ?_, by simpa using hx⟩
          rw [List.take_succ_cons, is_nullable_iff] at hnul
          rw [is_nullable_iff]
          exact fun t ht => hnul t (List.mem_cons_of_mem _ ht)
    · rw [if_neg hy]
      constructor
      · intro hx
        exact ⟨0, by simp, by simp [is_nullable], by simpa using hx⟩
      · rintro ⟨k, hk, hnul, hx⟩
        cases k with
        | zero => simpa using hx
        | succ k =>
          exfalso
          rw [List.take_succ_cons, is_nullable_iff] at hnul
          exact hy (hnul y (List.mem_cons_self _ _))

/-! ### Membership in the pass obligation lists -/

theorem mem_followOblA {ts nul : List Sym} {r : Rule} {ob : Obl} :
    ob ∈ followOblA ts nul r ↔
      ∃ i, i < r.2.length ∧ r.2.getD i "" ∉ ts ∧
        is_nullable (r.2.drop (i + 1)) nul = true ∧
        ob = (r.2.getD i "", fun d => fget d r.1) := by
  simp only [followOblA, List.mem_filterMap, List.mem_range]
  constructor
  · rintro ⟨i, hi, hf⟩
    by_cases h1 : r.2.getD i "" ∈ ts
    · rw [if_pos h1] at hf
      simp at hf
    · rw [if_neg h1] at hf
      by_cases h2 : is_nullable (r.2.drop (i + 1)) nul = true
      · rw [if_pos h2] at hf
        exact ⟨i, hi, h1, h2, (Option.some.inj hf).symm⟩
      · rw [if_neg h2] at hf
        simp at hf
  · rintro ⟨i, hi, h1, h2, rfl⟩
    exact ⟨i, hi, by rw [if_neg h1, if_pos h2]⟩

theorem mem_followOblB {ts nul : List Sym} {first : PyDict} {r : Rule} {ob : Obl} :
    ob ∈ followOblB ts nul first r ↔
      ∃ i, i < r.2.length - 1 ∧ r.2.getD i "" ∉ ts ∧
        ∃ j, i + 1 ≤ j ∧ j < r.2.length ∧
          is_nullable (pySlice r.2 (i + 1) j) nul = true ∧
          ob = (r.2.getD i "", fun _ => fget first (r.2.getD j "")) := by
  simp only [followOblB, List.mem_flatMap, List.mem_range]
  constructor
  · rintro ⟨i, hi, hmem⟩
    by_cases h1 : r.2.getD i "" ∈ ts
    · rw [if_pos h1] at hmem
      simp at hmem
    · rw [if_neg h1] at hmem
      simp only [List.mem_filterMap, List.mem_range'_1] at hmem
      obtain ⟨j, ⟨hj1, hj2⟩, hf⟩ := hmem
      by_cases h2 : is_nullable (pySlice r.2 (i + 1) j) nul = true
      · rw [if_pos h2] at hf
        exact ⟨i, hi, h1, j, hj1, by omega, h2, (Option.some.inj hf).symm⟩
      · rw [if_neg h2] at hf
        simp at hf
  · rintro ⟨i, hi, h1, j, hj1, hj2, h2, rfl⟩
    refine ⟨i, hi, ?_⟩
    rw [if_neg h1]
    simp only [List.mem_filterMap, List.mem_range'_1]
    exact ⟨j, ⟨hj1, by omega⟩, by rw [if_pos h2]⟩

theorem mem_followObligations {ts nul : List Sym} {first : PyDict} {g : Grammar}
    {ob : Obl} :
    ob ∈ followObligations ts nul first g ↔
      ∃ r ∈ g, ob ∈ followOblA ts nul r ∨ ob ∈ followOblB ts nul first r := by
  simp [followObligations, List.mem_flatMap, List.mem_append]

theorem firstObl_src {nul : List Sym} {g : Grammar} {ob : Obl}
    (h : ob ∈ firstObligations nul g) : ∃ s, ob.2 = fun d => fget d s := by
  simp only [firstObligations, List.mem_flatMap, List.mem_filterMap,
    List.mem_range] at h
  obtain ⟨r, _, i, _, hf⟩ := h
  by_cases hc : is_nullable (pySlice r.2 0 i) nul = true
  · rw [if_pos hc] at hf
    obtain rfl := Option.some.inj hf
    exact ⟨r.2.getD i "", rfl⟩
  · rw [if_neg hc] at hf
    simp at hf

/-! ### The initial dictionaries -/

theorem foldl_dset_entries (l : List Sym) (v : Sym → List Sym) (d0 : PyDict) :
    ∀ p ∈ l.foldl (fun d a => dset d a (v a)) d0,
      (∃ a ∈ l, p = (a, v a)) ∨ p ∈ d0 := by
  induction l generalizing d0 with
  | nil => exact fun p hp => Or.inr hp
  | cons a rest ih =>
    intro p hp
    rw [List.foldl_cons] at hp
    rcases ih (dset d0 a (v a)) p hp with ⟨b, hb, rfl⟩ | h
    · exact Or.inl ⟨b, List.mem_cons_of_mem _ hb, rfl⟩
    · rcases mem_dset h with rfl | h'
      · exact Or.inl ⟨a, List.mem_cons_self _ _, rfl⟩
      · exact Or.inr h'

theorem fget_fold_empty (l : List Sym) (k : Sym) :
    fget (l.foldl (fun d a => dset d a []) []) k = [] := by
  rcases dget_entry [] (l.foldl (fun d a => dset d a []) []) k with h | h
  · exact h
  · rcases foldl_dset_entries l (fun _ => []) [] _ h with ⟨a, _, ha⟩ | h'
    · have := congrArg Prod.snd ha
      simpa [fget] using this
    · simp at h'

theorem fget_followInit_start (nts : List Sym) (start : Sym) :
    fget (followInit nts start) start = [EOF] := by
  unfold followInit fget
  rw [dget_dset_self]

theorem fget_followInit_ne (nts : List Sym) (start k : Sym) (h : k ≠ start) :
    fget (followInit nts start) k = [] := by
  unfold followInit fget
  rw [dget_dset_ne [] _ _ h]
  exact fget_fold_empty nts k

theorem dset_keys_of_not_mem {κ ν : Type} [DecidableEq κ] {d : List (κ × ν)}
    {k : κ} (v : ν) (h : k ∉ d.map Prod.fst) :
    (dset d k v).map Prod.fst = d.map Prod.fst ++ [k] := by
  induction d with
  | nil => simp [dset]
  | cons p rest ih =>
    unfold dset
    by_cases hk : k = p.1
    · exact absurd (by simp [hk]) h
    · rw [if_neg hk]
      simp only [List.map_cons, List.cons_append]
      rw [ih (by intro hm; exact h (by simp [hm]))]

theorem foldl_dset_keys (l : List Sym) (v : Sym → List Sym) :
    ∀ (d0 : PyDict), l.Nodup → (∀ a ∈ l, a ∉ d0.map Prod.fst) →
      (l.foldl (fun d a => dset d a (v a)) d0).map Prod.fst =
        d0.map Prod.fst ++ l := by
  induction l with
  | nil => simp
  | cons a rest ih =>
    intro d0 hnd hdis
    rw [List.foldl_cons]
    have hk := dset_keys_of_not_mem (v a) (hdis a (List.mem_cons_self _ _))
    have hrec := ih (dset d0 a (v a)) hnd.of_cons ?_
    · rw [hrec, hk, List.append_assoc]
      simp
    · intro b hb
      rw [hk, List.mem_append]
      rintro (h | h)
      · exact hdis b (List.mem_cons_of_mem _ hb) h
      · rcases List.mem_singleton.mp h with rfl
        exact (List.nodup_cons.mp hnd).1 hb

theorem followInit_keys (nts : List Sym) (start : Sym) (hnd : nts.Nodup)
    (hs : start ∈ nts) : (followInit nts start).map Prod.fst = nts := by
  unfold followInit
  have h1 : (nts.foldl (fun d a => dset d a ([] : List Sym)) ([] : PyDict)).map
      Prod.fst = nts := by
    have h := foldl_dset_keys nts (fun _ => []) [] hnd (by simp)
    simpa using h
  rw [dset_keys_of_mem _ (by rw [h1]; exact hs), h1]

theorem followInit_entinv (nts : List Sym) (start : Sym) {V : List Sym}
    (hEOF : EOF ∈ V) : EntInv V (followInit nts start) := by
  intro p hp
  unfold followInit at hp
  rcases mem_dset hp with rfl | hp'
  · refine ⟨by simp, ?_⟩
    intro y hy
    rcases List.mem_singleton.mp hy with rfl
    exact hEOF
  · rcases foldl_dset_entries nts (fun _ => []) [] p hp' with ⟨a, _, rfl⟩ | h
    · exact ⟨by simp, by simp⟩
    · simp at h

theorem followInit_carrier (nts : List Sym) (start : Sym) (F' : Sym → Set Sym)
    (hEOF : EOF ∈ F' start) :
    ∀ k x, x ∈ fget (followInit nts start) k → x ∈ F' k := by
  intro k x hx
  by_cases hk : k = start
  · subst hk
    rw [fget_followInit_start] at hx
    rcases List.mem_singleton.mp hx with rfl
    exact hEOF
  · rw [fget_followInit_ne _ _ _ hk] at hx
    simp at hx

theorem firstInit_entry {ts nts : List Sym} {p : Sym × List Sym}
    (hp : p ∈ firstInit ts nts) : p.2 = [] ∨ ∃ t ∈ ts, p = (t, [t]) := by
  unfold firstInit at hp
  rcases foldl_dset_entries nts (fun _ => []) _ p hp with ⟨a, _, rfl⟩ | hp'
  · exact Or.inl rfl
  · rcases foldl_dset_entries ts (fun t => [t]) [] p hp' with ⟨t, ht, rfl⟩ | h
    · exact Or.inr ⟨t, ht, rfl⟩
    · simp at h

/-- Every set stored in the computed `first` dictionary holds terminals
only. -/
theorem first_values (ts nts : List Sym) (g : Grammar) (nul : List Sym) :
    ∀ k x, x ∈ fget (calculate_first ts nts g nul) k → x ∈ ts := by
  refine wc_pres _ (fun d => ∀ k x, x ∈ fget d k → x ∈ ts) ?_ _ _ ?_
  · intro d hd
    refine ro_carrier _ _ hd ?_
    intro ob hob d' hd'
    obtain ⟨s, hs⟩ := firstObl_src hob
    rw [hs]
    exact fun x hx => hd' s x hx
  · intro k x hx
    rcases dget_entry [] (firstInit ts nts) k with h | h
    · rw [fget, h] at hx
      simp at hx
    · rcases firstInit_entry h with h' | ⟨t, ht, h'⟩
      · simp only at h'
        rw [fget, h'] at hx
        simp at hx
      · have hv : dget [] (firstInit ts nts) k = [t] := congrArg Prod.snd h'
        rw [fget, hv] at hx
        rcases List.mem_singleton.mp hx with rfl
        exact ht

/-! ### `calculate_follow` as a least fixed point -/

theorem followObl_target {g : Grammar} {nul : List Sym} {first : PyDict} {ob : Obl}
    (h : ob ∈ followObligations (terminalsOf g) nul first g) :
    ob.1 ∈ nonterminalsOf g := by
  obtain ⟨r, hr, hA | hB⟩ := mem_followObligations.mp h
  · obtain ⟨i, hi, h1, _, rfl⟩ := mem_followOblA.mp hA
    exact (body_not_term_iff hr (getD_mem_of_lt _ _ hi)).mp h1
  · obtain ⟨i, hi, h1, j, hj1, hj2, h2, rfl⟩ := mem_followOblB.mp hB
    exact (body_not_term_iff hr (getD_mem_of_lt _ _ (by omega))).mp h1

theorem followObl_src_bound {g : Grammar} {nul : List Sym} {first : PyDict}
    (hfv : ∀ k x, x ∈ fget first k → x ∈ terminalsOf g) {ob : Obl}
    (h : ob ∈ followObligations (terminalsOf g) nul first g) :
    ∀ d, EntInv (EOF :: terminalsOf g) d →
      ∀ x ∈ ob.2 d, x ∈ EOF :: terminalsOf g := by
  obtain ⟨r, hr, hA | hB⟩ := mem_followObligations.mp h
  · obtain ⟨i, hi, h1, _, rfl⟩ := mem_followOblA.mp hA
    intro d hd x hx
    exact hd.fget_sub r.1 x hx
  · obtain ⟨i, hi, h1, j, hj1, hj2, h2, rfl⟩ := mem_followOblB.mp hB
    intro d _ x hx
    exact List.mem_cons_of_mem _ (hfv _ x hx)

theorem followLoop_inv (g : Grammar) (nul : List Sym) (first : PyDict) (start : Sym)
    (hstart : start ∈ nonterminalsOf g)
    (hfv : ∀ k x, x ∈ fget first k → x ∈ terminalsOf g) :
    (followLoop (terminalsOf g) (nonterminalsOf g) g nul first start).map Prod.fst =
        nonterminalsOf g ∧
      EntInv (EOF :: terminalsOf g)
        (followLoop (terminalsOf g) (nonterminalsOf g) g nul first start) := by
  refine wc_pres _
    (fun d => d.map Prod.fst = nonterminalsOf g ∧ EntInv (EOF :: terminalsOf g) d)
    ?_ _ _ ?_
  · rintro d ⟨h1, h2⟩
    constructor
    · exact ro_keys _ _ h1 fun ob hob => followObl_target hob
    · exact ro_entinv _ _ h2 fun ob hob => followObl_src_bound hfv hob
  · exact ⟨followInit_keys _ _ (nodup_nonterminalsOf g) hstart,
      followInit_entinv _ _ (List.mem_cons_self _ _)⟩

theorem followLoop_fix (g : Grammar) (nul : List Sym) (first : PyDict) (start : Sym)
    (hstart : start ∈ nonterminalsOf g)
    (hfv : ∀ k x, x ∈ fget first k → x ∈ terminalsOf g) :
    runObl (followObligations (terminalsOf g) nul first g)
        (followLoop (terminalsOf g) (nonterminalsOf g) g nul first start, false) =
      (followLoop (terminalsOf g) (nonterminalsOf g) g nul first start, false) := by
  have h := wc_fix
    (fun d => runObl (followObligations (terminalsOf g) nul first g) (d, false))
    dsize
    (fun d => d.map Prod.fst = nonterminalsOf g ∧ EntInv (EOF :: terminalsOf g) d)
    ((nonterminalsOf g).length * (EOF :: terminalsOf g).dedup.length)
    ?_ ?_ ?_ ?_ (followFuel g) (followInit (nonterminalsOf g) start) ?_ ?_
  · exact h
  · rintro d ⟨h1, h2⟩
    constructor
    · exact ro_keys _ _ h1 fun ob hob => followObl_target hob
    · exact ro_entinv _ _ h2 fun ob hob => followObl_src_bound hfv hob
  · rintro d _ hflag
    exact ro_dsize_strict _ _ hflag
  · rintro d ⟨h1, h2⟩
    have hlen : d.length = (nonterminalsOf g).length := by
      have hc := congrArg List.length h1
      simpa using hc
    have hbound : ∀ q ∈ d.map (fun p => p.2.length),
        q ≤ (EOF :: terminalsOf g).dedup.length := by
      intro q hq
      obtain ⟨p, hp, rfl⟩ := List.mem_map.mp hq
      exact nodup_subset_length (h2 p hp).1 (List.nodup_dedup _)
        fun x hx => List.mem_dedup.mpr ((h2 p hp).2 x hx)
    have hsum := List.sum_le_card_nsmul _ _ hbound
    rw [smul_eq_mul] at hsum
    unfold dsize
    simp only [List.length_map] at hsum
    rw [hlen] at hsum
    exact hsum
  · intro d hflag
    show (runObl (followObligations (terminalsOf g) nul first g) (d, false)).1 = d
    rw [(ro_of_flag_false _ _ hflag).1]
  · exact ⟨followInit_keys _ _ (nodup_nonterminalsOf g) hstart,
      followInit_entinv _ _ (List.mem_cons_self _ _)⟩
  · unfold followFuel
    omega

theorem followLoop_grows (g : Grammar) (nul : List Sym) (first : PyDict)
    (start : Sym) :
    DGrows (followInit (nonterminalsOf g) start)
      (followLoop (terminalsOf g) (nonterminalsOf g) g nul first start) := by
  refine wc_pres _ (fun d => DGrows (followInit (nonterminalsOf g) start) d)
    ?_ _ _ (DGrows.refl _)
  intro d hd
  exact hd.trans (ro_grows _ (d, false))

theorem followLoop_stable (g : Grammar) (nul : List Sym) (first : PyDict)
    (start : Sym) (hstart : start ∈ nonterminalsOf g)
    (hfv : ∀ k x, x ∈ fget first k → x ∈ terminalsOf g) :
    ∀ ob ∈ followObligations (terminalsOf g) nul first g,
      ∀ x ∈ ob.2 (followLoop (terminalsOf g) (nonterminalsOf g) g nul first start),
        x ∈ fget (followLoop (terminalsOf g) (nonterminalsOf g) g nul first start)
          ob.1 := by
  have hfix := followLoop_fix g nul first start hstart hfv
  exact (ro_of_flag_false _ _ (by rw [hfix])).2

theorem followLoop_closed (g : Grammar) (nul : List Sym) (first : PyDict)
    (start : Sym) (hstart : start ∈ nonterminalsOf g)
    (hstart_eq : (g.headD ("", [])).1 = start)
    (hfv : ∀ k x, x ∈ fget first k → x ∈ terminalsOf g) :
    FollowClosed g nul first
      (fun A => {x | x ∈
        fget (followLoop (terminalsOf g) (nonterminalsOf g) g nul first start) A}) := by
  have hstab := followLoop_stable g nul first start hstart hfv
  constructor
  · show EOF ∈ fget (followLoop (terminalsOf g) (nonterminalsOf g) g nul first start)
      (g.headD ("", [])).1
    rw [hstart_eq]
    exact (followLoop_grows g nul first start).mem
      (by rw [fget_followInit_start]; exact List.mem_singleton.mpr rfl)
  · intro r hr i hi hBnt
    have hBt : r.2.getD i "" ∉ terminalsOf g :=
      (body_not_term_iff hr (getD_mem_of_lt _ _ hi)).mpr hBnt
    constructor
    · intro hnul x hx
      have hob : ((r.2.getD i "", fun d => fget d r.1) : Obl) ∈
          followObligations (terminalsOf g) nul first g :=
        mem_followObligations.mpr
          ⟨r, hr, Or.inl (mem_followOblA.mpr ⟨i, hi, hBt, hnul, rfl⟩)⟩
      exact hstab _ hob x hx
    · intro x hx
      rw [mem_firstSeq] at hx
      obtain ⟨k, hk, hknul, hx⟩ := hx
      rw [List.length_drop] at hk
      have hj : i + 1 + k < r.2.length := by omega
      have hjeq : i + 1 + k = i + 1 + k := rfl
      have hslice : is_nullable (pySlice r.2 (i + 1) (i + 1 + k)) nul = true := by
        rw [slice_drop_take]
        exact hknul
      have hgd : (r.2.drop (i + 1)).getD k "" = r.2.getD (i + 1 + k) "" :=
        getD_drop r.2 (i + 1) k
      have hob : ((r.2.getD i "",
          fun _ => fget first (r.2.getD (i + 1 + k) "")) : Obl) ∈
          followObligations (terminalsOf g) nul first g :=
        mem_followObligations.mpr ⟨r, hr, Or.inr (mem_followOblB.mpr
          ⟨i, by omega, hBt, i + 1 + k, by omega, hj, hslice, rfl⟩)⟩
      refine hstab _ hob x ?_
      rw [← hgd]
      exact hx

theorem followLoop_least (g : Grammar) (nul : List Sym) (first : PyDict)
    (start : Sym) (F' : Sym → Set Sym)
    (hclosed : FollowClosed g nul first F')
    (hstart_eq : (g.headD ("", [])).1 = start) :
    ∀ k x, x ∈ fget (followLoop (terminalsOf g) (nonterminalsOf g) g nul first start) k →
      x ∈ F' k := by
  refine wc_pres _ (fun d => ∀ k x, x ∈ fget d k → x ∈ F' k) ?_ _ _ ?_
  · intro d hd
    refine ro_carrier _ _ hd ?_
    intro ob hob d' hd'
    obtain ⟨r, hr, hA | hB⟩ := mem_followObligations.mp hob
    · obtain ⟨i, hi, h1, hnul, rfl⟩ := mem_followOblA.mp hA
      intro x hx
      have hBnt := (body_not_term_iff hr (getD_mem_of_lt _ _ hi)).mp h1
      exact (hclosed.2 r hr i hi hBnt).1 hnul x (hd' r.1 x hx)
    · obtain ⟨i, hi, h1, j, hj1, hj2, h2, rfl⟩ := mem_followOblB.mp hB
      intro x hx
      have hilt : i < r.2.length := by omega
      have hBnt := (body_not_term_iff hr (getD_mem_of_lt _ _ hilt)).mp h1
      refine (hclosed.2 r hr i hilt hBnt).2 x ?_
      rw [mem_firstSeq]
      refine ⟨j - (i + 1), ?_, ?_, ?_⟩
      · rw [List.length_drop]
        omega
      · have hjeq : i + 1 + (j - (i + 1)) = j := by omega
        rw [← slice_drop_take, hjeq]
        exact h2
      · have hjeq : i + 1 + (j - (i + 1)) = j := by omega
        rw [getD_drop, hjeq]
        exact hx
  · exact followInit_carrier _ _ F' (hstart_eq ▸ hclosed.1)

theorem followLoop_values (g : Grammar) (nul : List Sym) (first : PyDict)
    (start : Sym) (hstart : start ∈ nonterminalsOf g)
    (hfv : ∀ k x, x ∈ fget first k → x ∈ terminalsOf g) :
    ∀ k x, x ∈ fget (followLoop (terminalsOf g) (nonterminalsOf g) g nul first start) k →
      x = EOF ∨ x ∈ terminalsOf g := by
  intro k x hx
  have hinv := followLoop_inv g nul first start hstart hfv
  rcases List.mem_cons.mp (hinv.2.fget_sub k x hx) with rfl | h
  · exact Or.inl rfl
  · exact Or.inr h

/-- C3: for every nonempty grammar, `calculate_follow` (fed the nullable set
and FIRST mapping computed from the same grammar) returns the least mapping
`F` with `EOF ∈ F(start)` that is closed under the FOLLOW constraints of
every rule; moreover every stored element is `EOF` or a terminal. -/
theorem calculate_follow_least_fixed_point (g : Grammar) (hg : g ≠ []) :
    ∃ F, calculate_follow (terminalsOf g) (nonterminalsOf g) g (calculate_nullable g)
        (calculate_first (terminalsOf g) (nonterminalsOf g) g (calculate_nullable g)) =
          some F ∧
      FollowClosed g (calculate_nullable g)
        (calculate_first (terminalsOf g) (nonterminalsOf g) g (calculate_nullable g))
        (fun A => {x | x ∈ fget F A}) ∧
      (∀ A, ∀ x ∈ fget F A, x = EOF ∨ x ∈ terminalsOf g) ∧
      ∀ F' : Sym → Set Sym,
        FollowClosed g (calculate_nullable g)
          (calculate_first (terminalsOf g) (nonterminalsOf g) g
            (calculate_nullable g)) F' →
          ∀ A, ∀ x ∈ fget F A, x ∈ F' A := by
  obtain ⟨r0, rest, rfl⟩ := List.exists_cons_of_ne_nil hg
  have hstart : r0.1 ∈ nonterminalsOf (r0 :: rest) :=
    mem_nonterminalsOf.mpr ⟨r0, List.mem_cons_self _ _, rfl⟩
  have hstart_eq : (((r0 :: rest) : Grammar).headD ("", [])).1 = r0.1 := rfl
  have hfv := first_values (terminalsOf (r0 :: rest)) (nonterminalsOf (r0 :: rest))
    (r0 :: rest) (calculate_nullable (r0 :: rest))
  refine ⟨_, rfl, ?_, ?_, ?_⟩
  · exact followLoop_closed _ _ _ _ hstart hstart_eq hfv
  · intro A x hx
    exact followLoop_values _ _ _ _ hstart hfv A x hx
  · intro F' hF' A x hx
    exact followLoop_least _ _ _ _ F' hF' hstart_eq A x hx

/-- Witness for C3 at the recitation grammar. -/
theorem calculate_follow_least_fixed_point_witness :
    grammar_recitation ≠ [] ∧
    ∃ F, calculate_follow (terminalsOf grammar_recitation)
        (nonterminalsOf grammar_recitation) grammar_recitation
        (calculate_nullable grammar_recitation)
        (calculate_first (terminalsOf grammar_recitation)
          (nonterminalsOf grammar_recitation) grammar_recitation
          (calculate_nullable grammar_recitation)) = some F ∧
      FollowClosed grammar_recitation (calculate_nullable grammar_recitation)
        (calculate_first (terminalsOf grammar_recitation)
          (nonterminalsOf grammar_recitation) grammar_recitation
          (calculate_nullable grammar_recitation))
        (fun A => {x | x ∈ fget F A}) ∧
      (∀ A, ∀ x ∈ fget F A, x = EOF ∨ x ∈ terminalsOf grammar_recitation) ∧
      ∀ F' : Sym → Set Sym,
        FollowClosed grammar_recitation (calculate_nullable grammar_recitation)
          (calculate_first (terminalsOf grammar_recitation)
            (nonterminalsOf grammar_recitation) grammar_recitation
            (calculate_nullable grammar_recitation)) F' →
          ∀ A, ∀ x ∈ fget F A, x ∈ F' A :=
  ⟨by decide, calculate_follow_least_fixed_point grammar_recitation (by decide)⟩

/-! ### `calculate_select`: the per-rule characterization -/

theorem selectWalk_mem (nul : List Sym) (first : PyDict) :
    ∀ (l acc : List Sym) (x : Sym),
      x ∈ selectWalk nul first acc l ↔ x ∈ acc ∨ x ∈ firstSeq first nul l := by
  intro l
  induction l with
  | nil => intro acc x; simp [selectWalk, firstSeq]
  | cons item rest ih =>
    intro acc x
    show x ∈ (if is_nullable [item] nul = true then
        selectWalk nul first ((fget first item).foldl pyAdd acc) rest
      else (fget first item).foldl pyAdd acc) ↔
      x ∈ acc ∨ x ∈ firstSeq first nul (item :: rest)
    unfold firstSeq
    by_cases hi : item ∈ nul
    · have hnul : is_nullable [item] nul = true := by simp [is_nullable, hi]
      rw [if_pos hnul, if_pos hi, ih, mem_foldl_pyAdd, List.mem_append]
      tauto
    · have hnul : ¬ is_nullable [item] nul = true := by simp [is_nullable, hi]
      rw [if_neg hnul, if_neg hi, mem_foldl_pyAdd]

theorem selectOfRule_mem (nul : List Sym) (first follow : PyDict) (r : Rule)
    (x : Sym) :
    x ∈ selectOfRule nul first follow r ↔
      x ∈ firstSeq first nul r.2 ∨
        (is_nullable r.2 nul = true ∧ x ∈ fget follow r.1) := by
  show x ∈ (if is_nullable r.2 nul = true then
      (fget follow r.1).foldl pyAdd
        (if r.2 ≠ [] then selectWalk nul first [] r.2 else [])
    else (if r.2 ≠ [] then selectWalk nul first [] r.2 else [])) ↔ _
  by_cases hb : r.2 = []
  · have hnul : is_nullable r.2 nul = true := by simp [hb, is_nullable]
    rw [if_pos hnul, if_neg (not_not_intro hb), mem_foldl_pyAdd, hb]
    simp [firstSeq, is_nullable]
  · by_cases hnul : is_nullable r.2 nul = true
    · rw [if_pos hnul, if_pos hb, mem_foldl_pyAdd, selectWalk_mem]
      simp [hnul]
      try tauto
    · rw [if_neg hnul, if_pos hb, selectWalk_mem]
      simp [hnul]

theorem calculate_select_eq (g : Grammar) (nul : List Sym) (first follow : PyDict)
    (r : Rule) (hr : r ∈ g) :
    dget [] (calculate_select g nul first follow) r =
      selectOfRule nul first follow r := by
  have aux : ∀ (l : List Rule) (d : List (Rule × List Sym)),
      (r ∈ l ∨ dget [] d r = selectOfRule nul first follow r) →
      dget [] (l.foldl (fun d r' => dset d r' (selectOfRule nul first follow r')) d) r =
        selectOfRule nul first follow r := by
    intro l
    induction l with
    | nil =>
      intro d h
      rcases h with h | h
      · simp at h
      · exact h
    | cons r' l' ih =>
      intro d h
      rw [List.foldl_cons]
      by_cases hrr : r = r'
      · subst hrr
        exact ih _ (Or.inr (by rw [dget_dset_self]))
      · refine ih _ ?_
        rcases h with h | h
        · rcases List.mem_cons.mp h with h' | h'
          · exact absurd h' hrr
          · exact Or.inl h'
        · exact Or.inr (by rw [dget_dset_ne [] _ _ hrr]; exact h)
  exact aux g [] (Or.inl hr)

/-- C1: for every rule `r = (A, alpha)` of the grammar, the SELECT mapping
computed by `calculate_select` (fed the pipeline's nullable set, FIRST and
FOLLOW) equals `FIRST(alpha)` united with `FOLLOW(A)` exactly when `alpha`
is nullable (the empty body counting as nullable). -/
theorem calculate_select_spec (g : Grammar) (r : Rule) (hr : r ∈ g) :
    ∃ F, calculate_follow (terminalsOf g) (nonterminalsOf g) g (calculate_nullable g)
        (calculate_first (terminalsOf g) (nonterminalsOf g) g (calculate_nullable g)) =
          some F ∧
      ∀ x, x ∈ dget [] (calculate_select g (calculate_nullable g)
          (calculate_first (terminalsOf g) (nonterminalsOf g) g
            (calculate_nullable g)) F) r ↔
        x ∈ firstSeq (calculate_first (terminalsOf g) (nonterminalsOf g) g
            (calculate_nullable g)) (calculate_nullable g) r.2 ∨
          (is_nullable r.2 (calculate_nullable g) = true ∧ x ∈ fget F r.1) := by
  have hg : g ≠ [] := by
    rintro rfl
    simp at hr
  obtain ⟨r0, rest, rfl⟩ := List.exists_cons_of_ne_nil hg
  refine ⟨_, rfl, ?_⟩
  intro x
  rw [calculate_select_eq _ _ _ _ r hr]
  exact selectOfRule_mem _ _ _ r x

/-- Witness for C1: the epsilon rule `EP -> ()` of the recitation grammar. -/
theorem calculate_select_spec_witness :
    ((EP, ([] : List Sym)) ∈ grammar_recitation) ∧
    ∃ F, calculate_follow (terminalsOf grammar_recitation)
        (nonterminalsOf grammar_recitation) grammar_recitation
        (calculate_nullable grammar_recitation)
        (calculate_first (terminalsOf grammar_recitation)
          (nonterminalsOf grammar_recitation) grammar_recitation
          (calculate_nullable grammar_recitation)) = some F ∧
      ∀ x, x ∈ dget [] (calculate_select grammar_recitation
          (calculate_nullable grammar_recitation)
          (calculate_first (terminalsOf grammar_recitation)
            (nonterminalsOf grammar_recitation) grammar_recitation
            (calculate_nullable grammar_recitation)) F) (EP, ([] : List Sym)) ↔
        x ∈ firstSeq (calculate_first (terminalsOf grammar_recitation)
            (nonterminalsOf grammar_recitation) grammar_recitation
            (calculate_nullable grammar_recitation))
            (calculate_nullable grammar_recitation) ([] : List Sym) ∨
          (is_nullable ([] : List Sym) (calculate_nullable grammar_recitation) = true ∧
            x ∈ fget F EP) :=
  ⟨by decide, calculate_select_spec grammar_recitation (EP, []) (by decide)⟩

/-! ### `is_LL1`: the pairwise conflict scan -/

theorem contains_true_iff {l : List Sym} {a : Sym} : l.contains a = true ↔ a ∈ l := by
  rw [List.contains_iff_exists_mem_beq]
  simp

theorem bool_not_eq_false {b : Bool} : (!b) = false ↔ b = true := by
  cases b <;> simp

theorem ll1Scan_false_iff (g : Grammar) (sel : List (Rule × List Sym)) :
    ll1Scan g sel = false ↔
      ∃ i j, i < j ∧ j < g.length ∧
        (g.getD i ("", [])).1 = (g.getD j ("", [])).1 ∧
        ∃ x, x ∈ dget [] sel (g.getD i ("", [])) ∧
          x ∈ dget [] sel (g.getD j ("", [])) := by
  unfold ll1Scan
  rw [bool_not_eq_false]
  simp only [List.any_eq_true, List.mem_range, List.mem_range'_1, ruleConflict,
    Bool.and_eq_true, beq_iff_eq, contains_true_iff]
  constructor
  · rintro ⟨i, hi, j, ⟨hj1, hj2⟩, hheads, x, hx1, hx2⟩
    exact ⟨i, j, hj1, by omega, hheads, x, hx1, hx2⟩
  · rintro ⟨i, j, hij, hjlen, hheads, x, hx1, hx2⟩
    exact ⟨i, by omega, j, ⟨hij, by omega⟩, hheads, x, hx1, hx2⟩

theorem is_LL1_eq (g : Grammar) (r0 : Rule) (rest : List Rule)
    (hg : g = r0 :: rest) : is_LL1 g = some (ll1Scan g (selectMapOf g)) := by
  subst hg
  rfl

/-- C2 (amended): on a nonempty grammar, `is_LL1` returns `False` exactly
when two rule positions `i < j` carry rules with the same head whose SELECT
sets intersect.  Rules are compared by position, so an identical rule value
listed at two positions conflicts with itself whenever its SELECT set is
nonempty. -/
theorem is_LL1_false_iff (g : Grammar) (hg : g ≠ []) :
    is_LL1 g = some false ↔
      ∃ i j, i < j ∧ j < g.length ∧
        (g.getD i ("", [])).1 = (g.getD j ("", [])).1 ∧
        ∃ x, x ∈ dget [] (selectMapOf g) (g.getD i ("", [])) ∧
          x ∈ dget [] (selectMapOf g) (g.getD j ("", [])) := by
  obtain ⟨r0, rest, rfl⟩ := List.exists_cons_of_ne_nil hg
  rw [is_LL1_eq _ r0 rest rfl]
  simp only [Option.some.injEq]
  exact ll1Scan_false_iff _ _

/-- Witness for C2 at `grammar_json_4a`. -/
theorem is_LL1_false_iff_witness :
    grammar_json_4a ≠ [] ∧
    (is_LL1 grammar_json_4a = some false ↔
      ∃ i j, i < j ∧ j < grammar_json_4a.length ∧
        (grammar_json_4a.getD i ("", [])).1 = (grammar_json_4a.getD j ("", [])).1 ∧
        ∃ x, x ∈ dget [] (selectMapOf grammar_json_4a)
            (grammar_json_4a.getD i ("", [])) ∧
          x ∈ dget [] (selectMapOf grammar_json_4a)
            (grammar_json_4a.getD j ("", []))) :=
  ⟨by decide, is_LL1_false_iff grammar_json_4a (by decide)⟩

/-- C2 counterexample: a grammar that lists the same rule value twice.  All
its rules are equal as values, so it has no two value-distinct rules at all,
yet `is_LL1` reports a conflict (the rule's SELECT set intersects itself). -/
theorem is_LL1_duplicate_rule_conflict :
    (∀ r1 ∈ ([(S, [ID]), (S, [ID])] : Grammar),
      ∀ r2 ∈ ([(S, [ID]), (S, [ID])] : Grammar), r1 = r2) ∧
    is_LL1 [(S, [ID]), (S, [ID])] = some false := by
  constructor
  · decide
  · rfl

/-! ### Totality of the analyzer (C5) -/

/-- C5 counterexample: on the empty grammar, `calculate_follow` (and hence
`is_LL1`) hits `grammar[0][0]` and raises `IndexError`, modelled by `none`. -/
theorem calculate_follow_empty_raises :
    calculate_follow (terminalsOf []) (nonterminalsOf []) []
        (calculate_nullable [])
        (calculate_first (terminalsOf []) (nonterminalsOf []) []
          (calculate_nullable [])) = none ∧
    is_LL1 [] = none :=
  ⟨rfl, rfl⟩

/-- C5 (amended): `calculate_nullable`, `calculate_first` and
`calculate_select` are total on every finite rule sequence (they are plain
functions of the embedding), while `calculate_follow` and `is_LL1` raise
exactly on the empty grammar and return a value on every nonempty one. -/
theorem analyzer_totality (g : Grammar) :
    (calculate_follow (terminalsOf g) (nonterminalsOf g) g (calculate_nullable g)
        (calculate_first (terminalsOf g) (nonterminalsOf g) g
          (calculate_nullable g)) = none ↔ g = []) ∧
    (is_LL1 g = none ↔ g = []) := by
  cases g with
  | nil => exact ⟨by simp [calculate_follow], by constructor <;> intro <;> rfl⟩
  | cons r0 rest =>
    constructor
    · simp [calculate_follow]
    · rw [is_LL1_eq _ r0 rest rfl]
      simp

/-! ### The concrete JSON grammars (C6) -/

/-- C6: `grammar_json_4a` (which contains the left-recursive rule
`members -> members COMMA members` alongside `members -> keyvalue`) is
rejected by `is_LL1`, while the right-recursive rewriting
`grammar_json_4b` (via `members_right`) is accepted. -/
theorem is_LL1_grammar_json_4a_4b :
    (members, [members, COMMA, members]) ∈ grammar_json_4a ∧
    (members, [keyvalue]) ∈ grammar_json_4a ∧
    (members_right, [COMMA, members]) ∈ grammar_json_4b ∧
    is_LL1 grammar_json_4a = some false ∧
    is_LL1 grammar_json_4b = some true := by
  refine ⟨by decide, by decide, by decide, ?_, ?_⟩
  · rfl
  · rfl

/-! ### The JSON parser's dispatch sets against the analyzer (C7) -/

/-- The SELECT dictionary that the analyzer pipeline computes for
`grammar_json_6`, evaluated. -/
theorem selectMapOf_g6_eval : selectMapOf grammar_json_6 = [
    ((obj, [LB, obj_right_set]), [LB]),
    ((obj_right_set, [RB]), [RB]),
    ((obj_right_set, [members_set, RB]), [STRING]),
    ((obj, [LS, obj_right_arr]), [LS]),
    ((obj_right_arr, [RS]), [RS]),
    ((obj_right_arr, [members_arr, RS]), [STRING]),
    ((members_set, [keyvalue, members_right_set]), [STRING]),
    ((members_right_set, [COMMA, members_set]), [COMMA]),
    ((members_right_set, []), [RB]),
    ((members_arr, [keyvalue, members_right_arr]), [STRING]),
    ((members_right_arr, [COMMA, members_arr]), [COMMA]),
    ((members_right_arr, []), [RS]),
    ((keyvalue, [STRING, COLON, value]), [STRING]),
    ((value, [STRING]), [STRING]),
    ((value, [INT]), [INT]),
    ((value, [obj]), [LB, LS])] := by
  rfl

/-- C7 counterexample: the `parse_members_arr` branch of the parser accepts
the lookahead `INT` for the rule `members_arr -> keyvalue members_right_arr`
of `grammar_json_6`, but `INT` is not in that rule's SELECT set as the
analyzer pipeline computes it. -/
theorem jsonParser_dispatch_mismatch :
    INT ∈ jsonParserDispatch (members_arr, [keyvalue, members_right_arr]) ∧
    INT ∉ dget [] (selectMapOf grammar_json_6)
      (members_arr, [keyvalue, members_right_arr]) := by
  rw [selectMapOf_g6_eval]
  constructor
  · decide
  · decide

/-- C7 (amended): for every rule of `grammar_json_6` except
`(obj_right_arr, [members_arr, RS])` and
`(members_arr, [keyvalue, members_right_arr])`, the lookahead set of the
parser branch equals the rule's pipeline SELECT set; on those two rules the
parser accepts `{STRING, INT, LB, LS}` while SELECT is `{STRING}` (the
parser parses a `value` where the grammar derives a `keyvalue`). -/
theorem jsonParser_dispatch_select (r : Rule) (hr : r ∈ grammar_json_6) :
    (r ≠ (obj_right_arr, [members_arr, RS]) →
     r ≠ (members_arr, [keyvalue, members_right_arr]) →
      (∀ x ∈ jsonParserDispatch r, x ∈ dget [] (selectMapOf grammar_json_6) r) ∧
      (∀ x ∈ dget [] (selectMapOf grammar_json_6) r, x ∈ jsonParserDispatch r)) ∧
    (r = (obj_right_arr, [members_arr, RS]) ∨
        r = (members_arr, [keyvalue, members_right_arr]) →
      jsonParserDispatch r = [STRING, INT, LB, LS] ∧
      dget [] (selectMapOf grammar_json_6) r = [STRING]) := by
  rw [selectMapOf_g6_eval]
  simp only [grammar_json_6, List.mem_cons] at hr
  rcases hr with rfl | rfl | rfl | rfl | rfl | rfl | rfl | rfl | rfl | rfl | rfl |
    rfl | rfl | rfl | rfl | rfl | hr
  all_goals first
    | decide
    | simp at hr

/-- Witness for C7 at the rule `keyvalue -> STRING COLON value`. -/
theorem jsonParser_dispatch_select_witness :
    ((keyvalue, [STRING, COLON, value]) ∈ grammar_json_6) ∧
    (((keyvalue, [STRING, COLON, value]) : Rule) ≠ (obj_right_arr, [members_arr, RS]) →
     ((keyvalue, [STRING, COLON, value]) : Rule) ≠
        (members_arr, [keyvalue, members_right_arr]) →
      (∀ x ∈ jsonParserDispatch (keyvalue, [STRING, COLON, value]),
        x ∈ dget [] (selectMapOf grammar_json_6) (keyvalue, [STRING, COLON, value])) ∧
      (∀ x ∈ dget [] (selectMapOf grammar_json_6) (keyvalue, [STRING, COLON, value]),
        x ∈ jsonParserDispatch (keyvalue, [STRING, COLON, value]))) ∧
    (((keyvalue, [STRING, COLON, value]) : Rule) = (obj_right_arr, [members_arr, RS]) ∨
        ((keyvalue, [STRING, COLON, value]) : Rule) =
          (members_arr, [keyvalue, members_right_arr]) →
      jsonParserDispatch (keyvalue, [STRING, COLON, value]) = [STRING, INT, LB, LS] ∧
      dget [] (selectMapOf grammar_json_6) (keyvalue, [STRING, COLON, value]) =
        [STRING]) :=
  ⟨by decide, jsonParser_dispatch_select (keyvalue, [STRING, COLON, value]) (by decide)⟩

/-! ### The parser base class: construction, advance and match -/

theorem getD_eq_get' {α : Type} (l : List α) (d : α) (n : Nat) (hn : n < l.length) :
    l.getD n d = l.get ⟨n, hn⟩ := by
  rw [List.getD_eq_getElem?_getD, List.getElem?_eq_getElem hn]
  rfl

/-- C8 (evaluation at the failing input): constructing the parser on the
empty token list raises `IndexError`, because `advance()` evaluates
`self.tokens[-1]` when `pos = -1 < 0 = len(tokens)` is false only for
nonempty lists. -/
theorem parserInit_empty_raises : parserInit ([] : List Token) = .error PErr.idxErr :=
  rfl

theorem parserInit_cons (t : Token) (ts : List Token) :
    parserInit (t :: ts) = .ok ⟨t :: ts, 0, t.1⟩ := by
  unfold parserInit advanceSt pyIdx
  simp only [List.length_cons]
  rw [if_pos (show (-1 : Int) < ((ts.length + 1 : Nat) : Int) by
    push_cast; omega)]
  rw [if_neg (show ¬ (0 : Int) ≤ -1 by omega)]
  rw [if_pos (show (0 : Int) ≤ ((ts.length + 1 : Nat) : Int) + -1 by
    push_cast; omega)]
  have htn : (((ts.length + 1 : Nat) : Int) + -1).toNat = ts.length := by
    push_cast
    omega
  rw [htn, List.get?_eq_get (show ts.length < (t :: ts).length by simp)]
  simp only []
  rw [if_pos (show (-1 : Int) + 1 < ((ts.length + 1 : Nat) : Int) by
    push_cast; omega)]
  rw [if_pos (show (0 : Int) ≤ -1 + 1 by omega)]
  have htn2 : ((-1 : Int) + 1).toNat = 0 := by omega
  rw [htn2]
  rfl

theorem parserInit_wf (tokens : List Token) (s : PState)
    (h : parserInit tokens = .ok s) : WFState s ∧ s.tokens = tokens := by
  cases tokens with
  | nil =>
    rw [parserInit_empty_raises] at h
    cases h
  | cons t ts =>
    rw [parserInit_cons] at h
    cases h
    constructor
    · constructor
      · show (0 : Int) ≤ 0
        omega
      · show t.1 = lookahead (t :: ts) 0
        unfold lookahead
        rw [if_pos (show (0 : Int) < ((t :: ts).length : Int) by
          exact_mod_cast Nat.succ_pos ts.length)]
        rfl
    · rfl

theorem advanceSt_wf (s : PState) (h : WFState s) :
    advanceSt s = (.ok (if s.pos < (s.tokens.length : Int) then
        (s.tokens.getD s.pos.toNat ("", "")).2 else EOF),
      ⟨s.tokens, s.pos + 1, lookahead s.tokens (s.pos + 1)⟩) := by
  obtain ⟨hpos, ht⟩ := h
  unfold advanceSt pyIdx
  by_cases h1 : s.pos < (s.tokens.length : Int)
  · rw [if_pos h1, if_pos hpos]
    have hlt : s.pos.toNat < s.tokens.length := by omega
    rw [List.get?_eq_get hlt]
    simp only []
    rw [if_pos h1, getD_eq_get' s.tokens ("", "") s.pos.toNat hlt]
    by_cases h2 : s.pos + 1 < (s.tokens.length : Int)
    · rw [if_pos h2]
      rw [if_pos (show (0 : Int) ≤ s.pos + 1 by omega)]
      have hlt2 : (s.pos + 1).toNat < s.tokens.length := by omega
      rw [List.get?_eq_get hlt2]
      simp only []
      unfold lookahead
      rw [if_pos h2, getD_eq_get' s.tokens ("", "") (s.pos + 1).toNat hlt2]
    · rw [if_neg h2]
      unfold lookahead
      rw [if_neg h2]
  · rw [if_neg h1]
    simp only []
    rw [if_neg (show ¬ s.pos + 1 < (s.tokens.length : Int) by omega)]
    rw [if_neg h1]
    unfold lookahead
    rw [if_neg (show ¬ s.pos + 1 < (s.tokens.length : Int) by omega)]

theorem advanceSt_wf_post (s : PState) (h : WFState s) :
    (advanceSt s).1 = .ok (if s.pos < (s.tokens.length : Int) then
        (s.tokens.getD s.pos.toNat ("", "")).2 else EOF) ∧
    (advanceSt s).2 = ⟨s.tokens, s.pos + 1, lookahead s.tokens (s.pos + 1)⟩ ∧
    WFState (advanceSt s).2 := by
  rw [advanceSt_wf s h]
  refine ⟨rfl, rfl, ?_, rfl⟩
  show (0 : Int) ≤ s.pos + 1
  have := h.1
  omega

theorem reachable_wf (s : PState) (h : Reachable s) : WFState s := by
  induction h with
  | init tokens s hinit => exact (parserInit_wf tokens s hinit).1
  | adv s v _ hok ih => exact (advanceSt_wf_post s ih).2.2
  | mtch s terminal v hre hok ih =>
    unfold matchSt at hok ⊢
    by_cases hterm : s.t = terminal
    · rw [if_pos hterm] at hok ⊢
      exact (advanceSt_wf_post s ih).2.2
    · rw [if_neg hterm] at hok ⊢
      exact ih

/-- C10: from every reachable parser state, `match(terminal)` raises
`SyntaxError` exactly when the lookahead differs from `terminal`; a raise
leaves the state untouched; a success advances `pos` by exactly one, keeps
the token list, and returns the value attached to the matched token (the
end marker itself when matching `EOF` at the end of the input). -/
theorem Parser_match_spec (s : PState) (hs : Reachable s) (terminal : Sym) :
    ((matchSt s terminal).1 = .error PErr.synErr ↔ s.t ≠ terminal) ∧
    (s.t ≠ terminal → matchSt s terminal = (.error PErr.synErr, s)) ∧
    (s.t = terminal →
      (matchSt s terminal).2.pos = s.pos + 1 ∧
      (matchSt s terminal).2.tokens = s.tokens ∧
      (matchSt s terminal).1 = .ok (if s.pos < (s.tokens.length : Int) then
        (s.tokens.getD s.pos.toNat ("", "")).2 else EOF)) := by
  have hwf := reachable_wf s hs
  have hadv := advanceSt_wf s hwf
  unfold matchSt
  by_cases hterm : s.t = terminal
  · rw [if_pos hterm, hadv]
    refine ⟨?_, fun h => absurd hterm h, fun _ => ⟨rfl, rfl, rfl⟩⟩
    constructor
    · intro h
      cases h
    · intro h
      exact absurd hterm h
  · rw [if_neg hterm]
    exact ⟨⟨fun _ => hterm, fun _ => rfl⟩, fun _ => rfl, fun h => absurd h hterm⟩

/-- Witness for C10: the state constructed from the one-token list
`[(LB, "x")]`, matching `LB`. -/
theorem Parser_match_spec_witness :
    Reachable (⟨[(LB, "x")], 0, LB⟩ : PState) ∧
    ((matchSt (⟨[(LB, "x")], 0, LB⟩ : PState) LB).1 = .error PErr.synErr ↔
      (⟨[(LB, "x")], 0, LB⟩ : PState).t ≠ LB) ∧
    ((⟨[(LB, "x")], 0, LB⟩ : PState).t ≠ LB →
      matchSt (⟨[(LB, "x")], 0, LB⟩ : PState) LB =
        (.error PErr.synErr, (⟨[(LB, "x")], 0, LB⟩ : PState))) ∧
    ((⟨[(LB, "x")], 0, LB⟩ : PState).t = LB →
      (matchSt (⟨[(LB, "x")], 0, LB⟩ : PState) LB).2.pos =
          (⟨[(LB, "x")], 0, LB⟩ : PState).pos + 1 ∧
      (matchSt (⟨[(LB, "x")], 0, LB⟩ : PState) LB).2.tokens =
          (⟨[(LB, "x")], 0, LB⟩ : PState).tokens ∧
      (matchSt (⟨[(LB, "x")], 0, LB⟩ : PState) LB).1 =
        .ok (if (⟨[(LB, "x")], 0, LB⟩ : PState).pos <
            ((⟨[(LB, "x")], 0, LB⟩ : PState).tokens.length : Int) then
          ((⟨[(LB, "x")], 0, LB⟩ : PState).tokens.getD
            (⟨[(LB, "x")], 0, LB⟩ : PState).pos.toNat ("", "")).2 else EOF)) :=
  have hre : Reachable (⟨[(LB, "x")], 0, LB⟩ : PState) :=
    Reachable.init [(LB, "x")] _ (by rw [parserInit_cons])
  ⟨hre, Parser_match_spec _ hre LB⟩

/-! ### The round trip through the JSON parser (C9) -/

theorem seg_nil (vals : List String) (n : Nat) : (vals.take n).drop n = [] := by
  apply List.drop_eq_nil_of_le
  rw [List.length_take]
  exact Nat.min_le_left _ _

theorem seg_single (vals : List String) (n : Nat) (h : n < vals.length) :
    (vals.take (n + 1)).drop n = [vals.getD n ""] := by
  induction vals generalizing n with
  | nil => simp at h
  | cons v vs ih =>
    cases n with
    | zero => simp
    | succ n =>
      simp only [List.take_succ_cons, List.drop_succ_cons, List.getD_cons_succ]
      exact ih n (by simpa using h)

theorem seg_glue (vals : List String) (a b c : Nat) (hab : a ≤ b) (hbc : b ≤ c)
    (hc : c ≤ vals.length) :
    (vals.take b).drop a ++ (vals.take c).drop b = (vals.take c).drop a := by
  have h1 : vals.take b = (vals.take c).take b := by
    rw [List.take_take, Nat.min_eq_left hbc]
  have hlen : ((vals.take c).take b).length = b := by
    rw [List.length_take, List.length_take]
    omega
  rw [h1]
  conv_rhs => rw [← List.take_append_drop b (vals.take c)]
  rw [List.drop_append_of_le_length (by rw [hlen]; exact hab)]

theorem lookahead_lt (s : PState) (hwf : WFState s) (h : s.t ≠ EOF) :
    s.pos < (s.tokens.length : Int) := by
  by_contra hge
  apply h
  rw [hwf.2]
  unfold lookahead
  rw [if_neg hge]

theorem map_snd_getD (l : List Token) (n : Nat) (hn : n < l.length) :
    (l.map Prod.snd).getD n "" = (l.getD n ("", "")).2 := by
  have hn2 : n < (l.map Prod.snd).length := by simpa using hn
  rw [getD_eq_get' _ "" n hn2, getD_eq_get' _ ("", "") n hn]
  simp [List.get_eq_getElem, List.getElem_map]

theorem matchE_segPiece (s : PState) (τ : Sym) (v : String) (s' : PState)
    (hwf : WFState s) (hτ : τ ≠ EOF) (h : matchE s τ = .ok (v, s')) :
    SegPiece s s' [v] := by
  unfold matchE matchSt at h
  by_cases hterm : s.t = τ
  · rw [if_pos hterm, advanceSt_wf s hwf] at h
    simp only [Except.ok.injEq, Prod.mk.injEq] at h
    obtain ⟨hv, hs'⟩ := h
    have hlt : s.pos < (s.tokens.length : Int) :=
      lookahead_lt s hwf (by rw [hterm]; exact hτ)
    rw [if_pos hlt] at hv
    subst hs'
    refine ⟨rfl, ?_, ?_, ⟨?_, rfl⟩, ?_⟩
    · show s.pos ≤ s.pos + 1
      omega
    · show (s.pos + 1 : Int) ≤ (s.tokens.length : Int)
      omega
    · show (0 : Int) ≤ s.pos + 1
      have := hwf.1
      omega
    · show [v] = ((s.tokens.map Prod.snd).take (s.pos + 1).toNat).drop s.pos.toNat
      have ht1 : (s.pos + 1).toNat = s.pos.toNat + 1 := by
        have := hwf.1
        omega
      have hlen : s.pos.toNat < (s.tokens.map Prod.snd).length := by
        rw [List.length_map]
        omega
      rw [ht1, seg_single _ _ hlen,
        map_snd_getD s.tokens s.pos.toNat (by omega), ← hv]
  · rw [if_neg hterm] at h
    simp at h

theorem segPiece_eps (s : PState) (hwf : WFState s)
    (hub : s.pos ≤ (s.tokens.length : Int)) : SegPiece s s [] :=
  ⟨rfl, le_refl _, hub, hwf, (seg_nil _ _).symm⟩

theorem segPiece_comp {s s1 s2 : PState} {xs ys : List String}
    (h1 : SegPiece s s1 xs) (h2 : SegPiece s1 s2 ys) :
    SegPiece s s2 (xs ++ ys) := by
  obtain ⟨ht1, hle1, hub1, hwf1, hx⟩ := h1
  obtain ⟨ht2, hle2, hub2, hwf2, hy⟩ := h2
  have hub2' : s2.pos ≤ (s.tokens.length : Int) := by
    rw [← ht1]
    exact hub2
  refine ⟨ht2.trans ht1, hle1.trans hle2, hub2', hwf2, ?_⟩
  rw [hx, hy, ht1]
  exact seg_glue (s.tokens.map Prod.snd) s.pos.toNat s1.pos.toNat s2.pos.toNat
    (by omega) (by omega) (by rw [List.length_map]; omega)

theorem exceptBind_ok {α β : Type} {ma : Except PErr α} {f : α → Except PErr β}
    {b : β} (h : (ma >>= f) = .ok b) : ∃ a, ma = .ok a ∧ f a = .ok b := by
  cases ma with
  | error e => simp [Bind.bind, Except.bind] at h
  | ok a => exact ⟨a, rfl, by simpa [Bind.bind, Except.bind] using h⟩

/-- Every successful run of a parse method consumes the token segment whose
values are exactly the leaves of the produced subtree, preserving the token
list and the state invariant. -/
theorem parse_all_post : ∀ fuel : Nat,
    (∀ s tr s', WFState s → parse_obj fuel s = .ok (tr, s') →
      SegPiece s s' (leavesOf tr)) ∧
    (∀ s tr s', WFState s → parse_obj_right_set fuel s = .ok (tr, s') →
      SegPiece s s' (leavesOf tr)) ∧
    (∀ s tr s', WFState s → parse_obj_right_arr fuel s = .ok (tr, s') →
      SegPiece s s' (leavesOf tr)) ∧
    (∀ s tr s', WFState s → parse_members_set fuel s = .ok (tr, s') →
      SegPiece s s' (leavesOf tr)) ∧
    (∀ s tr s', WFState s → parse_members_arr fuel s = .ok (tr, s') →
      SegPiece s s' (leavesOf tr)) ∧
    (∀ s tr s', WFState s → parse_members_right_set fuel s = .ok (tr, s') →
      SegPiece s s' (leavesOf tr)) ∧
    (∀ s tr s', WFState s → parse_members_right_arr fuel s = .ok (tr, s') →
      SegPiece s s' (leavesOf tr)) ∧
    (∀ s tr s', WFState s → parse_keyvalue fuel s = .ok (tr, s') →
      SegPiece s s' (leavesOf tr)) ∧
    (∀ s tr s', WFState s → parse_value fuel s = .ok (tr, s') →
      SegPiece s s' (leavesOf tr)) := by
  intro fuel
  induction fuel with
  | zero =>
    refine ⟨?_, ?_, ?_, ?_, ?_, ?_, ?_, ?_, ?_⟩ <;>
      intro s tr s' _ h <;>
      simp [parse_obj, parse_obj_right_set, parse_obj_right_arr,
        parse_members_set, parse_members_arr, parse_members_right_set,
        parse_members_right_arr, parse_keyvalue, parse_value] at h
  | succ n ih =>
    obtain ⟨ih_obj, ih_ors, ih_ora, ih_ms, ih_ma, ih_mrs, ih_mra, ih_kv,
      ih_val⟩ := ih
    refine ⟨?_, ?_, ?_, ?_, ?_, ?_, ?_, ?_, ?_⟩
    · -- parse_obj
      intro s tr s' hwf h
      rw [parse_obj] at h
      by_cases hg1 : s.t ∈ [LB]
      · rw [if_pos hg1] at h
        obtain ⟨⟨v1, s1⟩, hm1, h⟩ := exceptBind_ok h
        obtain ⟨⟨c2, s2⟩, hm2, h⟩ := exceptBind_ok h
        simp only [pure, Except.pure, Except.ok.injEq, Prod.mk.injEq] at h
        obtain ⟨rfl, rfl⟩ := h
        have hp1 := matchE_segPiece s LB v1 s1 hwf (by decide) hm1
        have hp2 := ih_ors s1 c2 s2 hp1.2.2.2.1 hm2
        simpa [leavesOf, leavesList] using segPiece_comp hp1 hp2
      · rw [if_neg hg1] at h
        by_cases hg2 : s.t ∈ [LS]
        · rw [if_pos hg2] at h
          obtain ⟨⟨v1, s1⟩, hm1, h⟩ := exceptBind_ok h
          obtain ⟨⟨c2, s2⟩, hm2, h⟩ := exceptBind_ok h
          simp only [pure, Except.pure, Except.ok.injEq, Prod.mk.injEq] at h
          obtain ⟨rfl, rfl⟩ := h
          have hp1 := matchE_segPiece s LS v1 s1 hwf (by decide) hm1
          have hp2 := ih_ora s1 c2 s2 hp1.2.2.2.1 hm2
          simpa [leavesOf, leavesList] using segPiece_comp hp1 hp2
        · rw [if_neg hg2] at h
          simp at h
    · -- parse_obj_right_set
      intro s tr s' hwf h
      rw [parse_obj_right_set] at h
      by_cases hg1 : s.t ∈ [RB]
      · rw [if_pos hg1] at h
        obtain ⟨⟨v1, s1⟩, hm1, h⟩ := exceptBind_ok h
        simp only [pure, Except.pure, Except.ok.injEq, Prod.mk.injEq] at h
        obtain ⟨rfl, rfl⟩ := h
        have hp1 := matchE_segPiece s RB v1 s1 hwf (by decide) hm1
        simpa [leavesOf, leavesList] using hp1
      · rw [if_neg hg1] at h
        by_cases hg2 : s.t ∈ [STRING]
        · rw [if_pos hg2] at h
          obtain ⟨⟨c1, s1⟩, hm1, h⟩ := exceptBind_ok h
          obtain ⟨⟨v2, s2⟩, hm2, h⟩ := exceptBind_ok h
          simp only [pure, Except.pure, Except.ok.injEq, Prod.mk.injEq] at h
          obtain ⟨rfl, rfl⟩ := h
          have hp1 := ih_ms s c1 s1 hwf hm1
          have hp2 := matchE_segPiece s1 RB v2 s2 hp1.2.2.2.1 (by decide) hm2
          simpa [leavesOf, leavesList] using segPiece_comp hp1 hp2
        · rw [if_neg hg2] at h
          simp at h
    · -- parse_obj_right_arr
      intro s tr s' hwf h
      rw [parse_obj_right_arr] at h
      by_cases hg1 : s.t ∈ [RS]
      · rw [if_pos hg1] at h
        obtain ⟨⟨v1, s1⟩, hm1, h⟩ := exceptBind_ok h
        simp only [pure, Except.pure, Except.ok.injEq, Prod.mk.injEq] at h
        obtain ⟨rfl, rfl⟩ := h
        have hp1 := matchE_segPiece s RS v1 s1 hwf (by decide) hm1
        simpa [leavesOf, leavesList] using hp1
      · rw [if_neg hg1] at h
        by_cases hg2 : s.t ∈ [STRING, INT, LB, LS]
        · rw [if_pos hg2] at h
          obtain ⟨⟨c1, s1⟩, hm1, h⟩ := exceptBind_ok h
          obtain ⟨⟨v2, s2⟩, hm2, h⟩ := exceptBind_ok h
          simp only [pure, Except.pure, Except.ok.injEq, Prod.mk.injEq] at h
          obtain ⟨rfl, rfl⟩ := h
          have hp1 := ih_ma s c1 s1 hwf hm1
          have hp2 := matchE_segPiece s1 RS v2 s2 hp1.2.2.2.1 (by decide) hm2
          simpa [leavesOf, leavesList] using segPiece_comp hp1 hp2
        · rw [if_neg hg2] at h
          simp at h
    · -- parse_members_set
      intro s tr s' hwf h
      rw [parse_members_set] at h
      by_cases hg1 : s.t ∈ [STRING]
      · rw [if_pos hg1] at h
        obtain ⟨⟨c1, s1⟩, hm1, h⟩ := exceptBind_ok h
        obtain ⟨⟨c2, s2⟩, hm2, h⟩ := exceptBind_ok h
        simp only [pure, Except.pure, Except.ok.injEq, Prod.mk.injEq] at h
        obtain ⟨rfl, rfl⟩ := h
        have hp1 := ih_kv s c1 s1 hwf hm1
        have hp2 := ih_mrs s1 c2 s2 hp1.2.2.2.1 hm2
        simpa [leavesOf, leavesList] using segPiece_comp hp1 hp2
      · rw [if_neg hg1] at h
        simp at h
    · -- parse_members_arr
      intro s tr s' hwf h
      rw [parse_members_arr] at h
      by_cases hg1 : s.t ∈ [STRING, INT, LB, LS]
      · rw [if_pos hg1] at h
        obtain ⟨⟨c1, s1⟩, hm1, h⟩ := exceptBind_ok h
        obtain ⟨⟨c2, s2⟩, hm2, h⟩ := exceptBind_ok h
        simp only [pure, Except.pure, Except.ok.injEq, Prod.mk.injEq] at h
        obtain ⟨rfl, rfl⟩ := h
        have hp1 := ih_val s c1 s1 hwf hm1
        have hp2 := ih_mra s1 c2 s2 hp1.2.2.2.1 hm2
        simpa [leavesOf, leavesList] using segPiece_comp hp1 hp2
      · rw [if_neg hg1] at h
        simp at h
    · -- parse_members_right_set
      intro s tr s' hwf h
      rw [parse_members_right_set] at h
      by_cases hg1 : s.t ∈ [COMMA]
      · rw [if_pos hg1] at h
        obtain ⟨⟨v1, s1⟩, hm1, h⟩ := exceptBind_ok h
        obtain ⟨⟨c2, s2⟩, hm2, h⟩ := exceptBind_ok h
        simp only [pure, Except.pure, Except.ok.injEq, Prod.mk.injEq] at h
        obtain ⟨rfl, rfl⟩ := h
        have hp1 := matchE_segPiece s COMMA v1 s1 hwf (by decide) hm1
        have hp2 := ih_ms s1 c2 s2 hp1.2.2.2.1 hm2
        simpa [leavesOf, leavesList] using segPiece_comp hp1 hp2
      · rw [if_neg hg1] at h
        by_cases hg2 : s.t ∈ [RB]
        · rw [if_pos hg2] at h
          simp only [pure, Except.pure, Except.ok.injEq, Prod.mk.injEq] at h
          obtain ⟨rfl, rfl⟩ := h
          have hne : s.t ≠ EOF := by
            rcases List.mem_singleton.mp hg2 with ht
            rw [ht]
            decide
          have hlt := lookahead_lt s hwf hne
          simpa [leavesOf, leavesList] using
            segPiece_eps s hwf (by omega)
        · rw [if_neg hg2] at h
          simp at h
    · -- parse_members_right_arr
      intro s tr s' hwf h
      rw [parse_members_right_arr] at h
      by_cases hg1 : s.t ∈ [COMMA]
      · rw [if_pos hg1] at h
        obtain ⟨⟨v1, s1⟩, hm1, h⟩ := exceptBind_ok h
        obtain ⟨⟨c2, s2⟩, hm2, h⟩ := exceptBind_ok h
        simp only [pure, Except.pure, Except.ok.injEq, Prod.mk.injEq] at h
        obtain ⟨rfl, rfl⟩ := h
        have hp1 := matchE_segPiece s COMMA v1 s1 hwf (by decide) hm1
        have hp2 := ih_ma s1 c2 s2 hp1.2.2.2.1 hm2
        simpa [leavesOf, leavesList] using segPiece_comp hp1 hp2
      · rw [if_neg hg1] at h
        by_cases hg2 : s.t ∈ [RS]
        · rw [if_pos hg2] at h
          simp only [pure, Except.pure, Except.ok.injEq, Prod.mk.injEq] at h
          obtain ⟨rfl, rfl⟩ := h
          have hne : s.t ≠ EOF := by
            rcases List.mem_singleton.mp hg2 with ht
            rw [ht]
            decide
          have hlt := lookahead_lt s hwf hne
          simpa [leavesOf, leavesList] using
            segPiece_eps s hwf (by omega)
        · rw [if_neg hg2] at h
          simp at h
    · -- parse_keyvalue
      intro s tr s' hwf h
      rw [parse_keyvalue] at h
      by_cases hg1 : s.t ∈ [STRING]
      · rw [if_pos hg1] at h
        obtain ⟨⟨v1, s1⟩, hm1, h⟩ := exceptBind_ok h
        obtain ⟨⟨v2, s2⟩, hm2, h⟩ := exceptBind_ok h
        obtain ⟨⟨c3, s3⟩, hm3, h⟩ := exceptBind_ok h
        simp only [pure, Except.pure, Except.ok.injEq, Prod.mk.injEq] at h
        obtain ⟨rfl, rfl⟩ := h
        have hp1 := matchE_segPiece s STRING v1 s1 hwf (by decide) hm1
        have hp2 := matchE_segPiece s1 COLON v2 s2 hp1.2.2.2.1 (by decide) hm2
        have hp3 := ih_val s2 c3 s3 hp2.2.2.2.1 hm3
        simpa [leavesOf, leavesList, List.append_assoc] using
          segPiece_comp (segPiece_comp hp1 hp2) hp3
      · rw [if_neg hg1] at h
        simp at h
    · -- parse_value
      intro s tr s' hwf h
      rw [parse_value] at h
      by_cases hg1 : s.t ∈ [STRING, INT]
      · rw [if_pos hg1] at h
        obtain ⟨⟨v1, s1⟩, hm1, h⟩ := exceptBind_ok h
        simp only [pure, Except.pure, Except.ok.injEq, Prod.mk.injEq] at h
        obtain ⟨rfl, rfl⟩ := h
        have hne : s.t ≠ EOF := by
          rcases List.mem_cons.mp hg1 with ht | hg1'
          · rw [ht]
            decide
          · rcases List.mem_singleton.mp hg1' with ht
            rw [ht]
            decide
        have hp1 := matchE_segPiece s s.t v1 s1 hwf hne hm1
        simpa [leavesOf, leavesList] using hp1
      · rw [if_neg hg1] at h
        by_cases hg2 : s.t ∈ [LB, LS]
        · rw [if_pos hg2] at h
          obtain ⟨⟨c1, s1⟩, hm1, h⟩ := exceptBind_ok h
          simp only [pure, Except.pure, Except.ok.injEq, Prod.mk.injEq] at h
          obtain ⟨rfl, rfl⟩ := h
          have hp1 := ih_obj s c1 s1 hwf hm1
          simpa [leavesOf, leavesList] using hp1
        · rw [if_neg hg2] at h
          simp at h

theorem parserInit_state (tokens : List Token) (s : PState)
    (h : parserInit tokens = .ok s) : s.tokens = tokens ∧ s.pos = 0 := by
  cases tokens with
  | nil =>
    rw [parserInit_empty_raises] at h
    cases h
  | cons t ts =>
    rw [parserInit_cons] at h
    cases h
    exact ⟨rfl, rfl⟩

/-- A successful top-level `parse` from a freshly constructed parser on a
token list without `EOF`-terminal tokens consumes every token, and the
leaves of the tree are the attached values in order (for every fuel). -/
theorem parse_round_trip (fuel : Nat) (tokens : List Token) (s0 : PState)
    (tr : PTree) (s1 : PState) (hne : NoEofTokens tokens)
    (hinit : parserInit tokens = .ok s0) (h : parse fuel s0 = .ok (tr, s1)) :
    leavesOf tr = tokens.map Prod.snd := by
  have hwf0 := (parserInit_wf tokens s0 hinit).1
  obtain ⟨htok0, hpos0⟩ := parserInit_state tokens s0 hinit
  unfold parse at h
  obtain ⟨⟨tr0, sA⟩, hm1, h⟩ := exceptBind_ok h
  obtain ⟨⟨vE, sB⟩, hm2, h⟩ := exceptBind_ok h
  simp only [pure, Except.pure, Except.ok.injEq, Prod.mk.injEq] at h
  obtain ⟨rfl, rfl⟩ := h
  obtain ⟨htokA, hleA, hubA, hwfA, hleaves⟩ :=
    (parse_all_post fuel).1 s0 tr0 sA hwf0 hm1
  have htA : sA.t = EOF := by
    unfold matchE matchSt at hm2
    by_cases ht : sA.t = EOF
    · exact ht
    · rw [if_neg ht] at hm2
      simp at hm2
  have hge : ¬ sA.pos < (sA.tokens.length : Int) := by
    intro hlt
    have hla := hwfA.2
    rw [htA] at hla
    unfold lookahead at hla
    rw [if_pos hlt] at hla
    have hposA : (0 : Int) ≤ sA.pos := hwfA.1
    have hmem : sA.tokens.getD sA.pos.toNat ("", "") ∈ sA.tokens := by
      rw [getD_eq_get' sA.tokens ("", "") sA.pos.toNat (by omega)]
      exact List.get_mem _ _ _
    have hteq : sA.tokens = tokens := htokA.trans htok0
    rw [hteq] at hmem hla
    exact hne _ hmem hla.symm
  have hlenA : sA.pos.toNat = tokens.length := by
    have hteq : sA.tokens = tokens := htokA.trans htok0
    rw [htok0] at hubA
    rw [hteq] at hge
    have hposA : (0 : Int) ≤ sA.pos := hwfA.1
    omega
  rw [hleaves, hpos0, hlenA, htok0]
  have htake : (tokens.map Prod.snd).take tokens.length = tokens.map Prod.snd := by
    rw [← List.length_map tokens Prod.snd]
    exact List.take_length _
  rw [htake]
  rfl

/-- The nested array input `[[ ]]`, whose run performs more method calls
than it consumes tokens, parses successfully once given enough fuel, and
its leaves reproduce the attached values in order. -/
theorem parseTokens_nested_array_ok :
    ∃ tr, parseTokens 100 [(LS, "a"), (LS, "b"), (RS, "c"), (RS, "d")] =
        .ok tr ∧
      leavesOf tr = ["a", "b", "c", "d"] :=
  ⟨_, rfl, rfl⟩

/-- C9 (amended): for every token list in which no token carries the `EOF`
marker as its terminal and every fuel, a successful `JsonParser(tokens).parse()`
run returns a tree whose left-to-right leaf values are exactly the attached
values of the input tokens in order. The fuel is universally quantified, so
every terminating run of the unbounded Python recursion is covered. -/
theorem parseTokens_round_trip (fuel : Nat) (tokens : List Token) (tr : PTree)
    (hne : NoEofTokens tokens) (h : parseTokens fuel tokens = .ok tr) :
    leavesOf tr = tokens.map Prod.snd := by
  unfold parseTokens at h
  cases hinit : parserInit tokens with
  | error e =>
    rw [hinit] at h
    cases h
  | ok s0 =>
    rw [hinit] at h
    have h' : (match parse fuel s0 with
      | .error e => (.error e : Except PErr PTree)
      | .ok (tr, _) => .ok tr) = .ok tr := h
    cases hp : parse fuel s0 with
    | error e =>
      rw [hp] at h'
      cases h'
    | ok p =>
      obtain ⟨tr0, s1⟩ := p
      rw [hp] at h'
      cases h'
      exact parse_round_trip fuel tokens s0 _ s1 hne hinit hp

/-- C9 counterexample: a parse can succeed on a token list containing a
token whose terminal is the `EOF` marker; the final `match(EOF)` consumes
that token (discarding its value) and any tokens after it are ignored, so
the tree's leaves reproduce neither all attached values nor the values of
the non-`EOF` tokens. -/
theorem parseTokens_eof_token_counterexample :
    parseTokens 100 [(LB, "a"), (RB, "b"), (EOF, "c"), (INT, "d")] =
      .ok (PTree.node obj [PTree.leaf "a",
        PTree.node obj_right_set [PTree.leaf "b"]]) ∧
    leavesOf (PTree.node obj [PTree.leaf "a",
      PTree.node obj_right_set [PTree.leaf "b"]]) = ["a", "b"] ∧
    (["a", "b"] : List String) ≠
      ([(LB, "a"), (RB, "b"), (EOF, "c"), (INT, "d")] : List Token).map Prod.snd ∧
    (["a", "b"] : List String) ≠
      (([(LB, "a"), (RB, "b"), (EOF, "c"), (INT, "d")] : List Token).filter
        fun tok => decide (tok.1 ≠ EOF)).map Prod.snd := by
  exact ⟨by rfl, by rfl, by decide, by decide⟩

/-- Witness for C9 at fuel `100` and the token list `[(LB, "x"), (RB, "y")]`. -/
theorem parseTokens_round_trip_witness :
    NoEofTokens [(LB, "x"), (RB, "y")] ∧
    parseTokens 100 [(LB, "x"), (RB, "y")] =
      .ok (PTree.node obj [PTree.leaf "x",
        PTree.node obj_right_set [PTree.leaf "y"]]) ∧
    leavesOf (PTree.node obj [PTree.leaf "x",
      PTree.node obj_right_set [PTree.leaf "y"]]) =
      ([(LB, "x"), (RB, "y")] : List Token).map Prod.snd :=
  ⟨show ∀ tok ∈ ([(LB, "x"), (RB, "y")] : List Token), tok.1 ≠ EOF by decide,
   by rfl,
   parseTokens_round_trip 100 [(LB, "x"), (RB, "y")] _
     (show ∀ tok ∈ ([(LB, "x"), (RB, "y")] : List Token), tok.1 ≠ EOF by decide)
     (by rfl)⟩

end Ex1
